import Mathlib

set_option linter.unusedSectionVars false
set_option linter.unusedVariables false

/-!
Verification development for the boat-ride-api route normalization pipeline
(`app/services/route_normalizer.py`, `app/utils/geo.py`).

The pipeline is embedded shallowly, generically over a linear ordered field
`F` (the Python code computes with floats; the embedding uses exact field
arithmetic) and over an abstract distance function `dist` standing for
`haversine_m` (and an abstract bearing function `bear` standing for
`bearing_deg_true`).  The concrete geo primitives are embedded over `ℝ`
below and the pipeline is instantiated with them.

The `while d < total` loop of `resample_even_spacing` is embedded with
explicit fuel: a result of `none` models non-termination of the Python
loop; `loopFuelBound` is an amount of fuel shown sufficient whenever the
spacing is positive.
-/

namespace BoatRide

variable {F : Type} [LinearOrderedField F] [FloorRing F] [DecidableEq F]

/-- Guardrail / resampler error kinds, mirroring the `ValueError`s raised in
`route_normalizer.py` (in source order). -/
inductive RouteErr where
  | tooSparse
  | dupAdjacent
  | segTooLong
  | tooShort
  | tooLong
  | zeroLengthRoute
deriving DecidableEq, Repr

def DEFAULT_SPACING_M : F := 250
def MAX_POINTS : ℕ := 2500
def MIN_ROUTE_M : F := 25
def MAX_ROUTE_M : F := 500000
def MAX_SEGMENT_M : F := 50000

/-- `deduped = [pts[0]]; for p in pts[1:]: if p != deduped[-1]: deduped.append(p)`
(tail worker: `last` is the last kept element). -/
def dedupGo : F × F → List (F × F) → List (F × F)
  | _, [] => []
  | last, p :: rest => if p = last then dedupGo last rest else p :: dedupGo p rest

/-- Consecutive de-duplication performed at the top of
`validate_route_guardrails`.  (Python indexes `points_lonlat[0]` and would
fail on an empty list; the boundary layer guarantees ≥ 2 points.) -/
def dedupConsecutive : List (F × F) → List (F × F)
  | [] => []
  | p :: rest => p :: dedupGo p rest

/-- The per-segment sanity loop of `validate_route_guardrails`: for each
adjacent pair raise on `seg <= 0`, then on `seg > MAX_SEGMENT_M`. -/
def checkSegs (dist : F × F → F × F → F) : List (F × F) → Except RouteErr Unit
  | a :: b :: rest =>
    if dist a b ≤ 0 then .error .dupAdjacent
    else if dist a b > MAX_SEGMENT_M then .error .segTooLong
    else checkSegs dist (b :: rest)
  | _ => .ok ()

/-- `polyline_length_m` from `geo.py`: sum of consecutive distances. -/
def polyline_length_m (dist : F × F → F × F → F) : List (F × F) → F
  | a :: b :: rest => dist a b + polyline_length_m dist (b :: rest)
  | _ => 0

/-- `validate_route_guardrails` from `route_normalizer.py`. -/
def validate_route_guardrails (dist : F × F → F × F → F) (pts : List (F × F)) :
    Except RouteErr Unit :=
  let deduped := dedupConsecutive pts
  if deduped.length < 2 then .error .tooSparse
  else
    match checkSegs dist deduped with
    | .error e => .error e
    | .ok _ =>
      let total := polyline_length_m dist deduped
      if total < MIN_ROUTE_M then .error .tooShort
      else if total > MAX_ROUTE_M then .error .tooLong
      else .ok ()

/-- `float(requested_spacing_m or DEFAULT_SPACING_M)`: Python's `or` treats
`None` and `0.0` alike, both falling back to the default. -/
def spacingBase : Option F → F
  | none => DEFAULT_SPACING_M
  | some s => if s = 0 then DEFAULT_SPACING_M else s

/-- `pick_spacing_m`.  `int(total // spacing)` is the floor of the exact
quotient. -/
def pick_spacing_m (total : F) (requested : Option F) : F :=
  let spacing := spacingBase requested
  if total ≤ 0 then spacing
  else if (⌊total / spacing⌋ + 2 : ℤ) ≤ (MAX_POINTS : ℤ) then spacing
  else total / ((max 2 (MAX_POINTS - 1) : ℕ) : F)

/-- A segment tuple `(a_lon, a_lat, b_lon, b_lat, seg_len)` built by
`resample_even_spacing`. -/
structure Seg (F : Type) where
  aLon : F
  aLat : F
  bLon : F
  bLat : F
  len : F
deriving DecidableEq, Repr

/-- The segment-building loop at the top of `resample_even_spacing`. -/
def buildSegs (dist : F × F → F × F → F) : List (F × F) → List (Seg F)
  | a :: b :: rest => ⟨a.1, a.2, b.1, b.2, dist a b⟩ :: buildSegs dist (b :: rest)
  | _ => []

/-- The target-generation loop `d = spacing; while d < total: targets.append(d);
d += spacing`, with explicit fuel.  `none` models non-termination. -/
def targetsFuel (spacing total : F) : ℕ → F → Option (List F)
  | 0, d => if d < total then none else some []
  | fuel + 1, d =>
    if d < total then (targetsFuel spacing total fuel (d + spacing)).map (fun l => d :: l)
    else some []

/-- Fuel shown sufficient for `targetsFuel` whenever `0 < spacing`. -/
def loopFuelBound (spacing total : F) : ℕ := ⌈total / spacing⌉₊ + 1

/-- The cursor-advancing inner `while` loop of the resampler:
`while seg_idx < len(segs) and seg_start_cum + segs[seg_idx][-1] < t`. -/
def advanceCursor (segs : List (Seg F)) (t : F) (segIdx : ℕ) (cum : F) : ℕ × F :=
  if h : segIdx < segs.length then
    let s := segs.get ⟨segIdx, h⟩
    if cum + s.len < t then advanceCursor segs t (segIdx + 1) (cum + s.len)
    else (segIdx, cum)
  else (segIdx, cum)
termination_by segs.length - segIdx

def junkSeg : Seg F := ⟨0, 0, 0, 0, 0⟩

/-- The point emitted for one target `t` given the cursor state: the
`if seg_idx >= len(segs)` / zero-length-snap / linear-interpolation body.
Returns `(lat, lon)` as the code builds its tuples lat-first. -/
def samplePoint (segs : List (Seg F)) (segIdx : ℕ) (cum : F) (t : F) : F × F :=
  if h : segIdx < segs.length then
    let s := segs.get ⟨segIdx, h⟩
    if s.len = 0 then (s.bLat, s.bLon)
    else
      let frac := (t - cum) / s.len
      (s.aLat + frac * (s.bLat - s.aLat), s.aLon + frac * (s.bLon - s.aLon))
  else
    let s := segs.getLastD junkSeg
    (s.bLat, s.bLon)

/-- One output tuple `(lat, lon, seg_dist_m, cum_dist_m)` of
`resample_even_spacing`. -/
structure RSample (F : Type) where
  lat : F
  lon : F
  segDist : F
  cum : F
deriving DecidableEq, Repr

/-- The emission loop `for t in targets`, carrying the cursor
`(seg_idx, seg_start_cum)`, `last_cum`, and whether `out` is still empty. -/
def emitAux (segs : List (Seg F)) :
    List F → ℕ → F → F → Bool → List (RSample F)
  | [], _, _, _, _ => []
  | t :: rest, segIdx, cum, lastCum, isFirst =>
    let c := advanceCursor segs t segIdx cum
    let p := samplePoint segs c.1 c.2 t
    ⟨p.1, p.2, if isFirst then 0 else t - lastCum, t⟩ ::
      emitAux segs rest c.1 c.2 t false

/-- `resample_even_spacing` from `route_normalizer.py`.  The outer `Option`
models termination of the target-generation loop (`none` = the Python loop
never terminates, which happens exactly when `spacing ≤ 0 < total`). -/
def resample_even_spacing (dist : F × F → F × F → F) (pts : List (F × F))
    (spacing : F) : Option (Except RouteErr (List (RSample F))) :=
  let segs := buildSegs dist pts
  let total := (segs.map (fun s => s.len)).sum
  if total = 0 then some (.error .zeroLengthRoute)
  else
    match targetsFuel spacing total (loopFuelBound spacing total) spacing with
    | none => none
    | some mids =>
      let targets := 0 :: mids
      let targets := if mids.getLastD 0 ≠ total then targets ++ [total] else targets
      some (.ok (emitAux segs targets 0 0 0 true))

/-- The bearing loop `for i in range(len(samples) - 1)` of
`normalize_raw_route`: bearing from each sample to its successor. -/
def bearingSeq (bear : F → F → F → F → F) : List (RSample F) → List F
  | a :: b :: rest => bear a.lon a.lat b.lon b.lat :: bearingSeq bear (b :: rest)
  | _ => []

/-- `if bearings: bearings.append(bearings[-1]) else: bearings.append(0.0)`. -/
def mkBearings (bear : F → F → F → F → F) (samples : List (RSample F)) : List F :=
  match bearingSeq bear samples with
  | [] => [0]
  | b :: bs => (b :: bs) ++ [(b :: bs).getLastD 0]

/-- A `NormalizedPoint` record from `route_models.py`. -/
structure NormalizedPoint (F : Type) where
  i : ℕ
  lat : F
  lon : F
  seg_dist_m : F
  cum_dist_m : F
  bearing_deg_true : F
deriving DecidableEq, Repr

/-- `for i, (lat, lon, seg, cum) in enumerate(samples): ... bearings[i]`. -/
def mkPoints : ℕ → List (RSample F) → List F → List (NormalizedPoint F)
  | _, [], _ => []
  | _, _ :: _, [] => []
  | i, s :: ss, b :: bs => ⟨i, s.lat, s.lon, s.segDist, s.cum, b⟩ :: mkPoints (i + 1) ss bs

/-- Python `min(list)` (the code never calls it on an empty list). -/
def listMin : List F → F
  | [] => 0
  | x :: xs => xs.foldl min x

/-- Python `max(list)`. -/
def listMax : List F → F
  | [] => 0
  | x :: xs => xs.foldl max x

structure BBoxWGS84 (F : Type) where
  min_lat : F
  min_lon : F
  max_lat : F
  max_lon : F
deriving DecidableEq, Repr

/-- `bbox_wgs84` from `geo.py`, over a `(lon, lat)` list. -/
def bbox_wgs84 (pts : List (F × F)) : BBoxWGS84 F :=
  ⟨listMin (pts.map Prod.snd), listMin (pts.map Prod.fst),
   listMax (pts.map Prod.snd), listMax (pts.map Prod.fst)⟩

/-- The `NormalizedRouteBody` aggregate assembled by `normalize_raw_route`
(route id, hash and timestamp are handled separately). -/
structure NormalizedRoute (F : Type) where
  spacing_m : F
  total_distance_m : F
  point_count : ℕ
  bbox : BBoxWGS84 F
  points : List (NormalizedPoint F)
deriving DecidableEq, Repr

def junkPoint : NormalizedPoint F := ⟨0, 0, 0, 0, 0, 0⟩

/-- `normalize_raw_route` from `route_normalizer.py` (geometry part: the
content hash of the raw input is modelled separately).  The outer `Option`
models termination, inherited from the resampler. -/
def normalize_raw_route (dist : F × F → F × F → F) (bear : F → F → F → F → F)
    (pts : List (F × F)) (spacing? : Option F) :
    Option (Except RouteErr (NormalizedRoute F)) :=
  match validate_route_guardrails dist pts with
  | .error e => some (.error e)
  | .ok _ =>
    let total := polyline_length_m dist pts
    let spacing := pick_spacing_m total spacing?
    match resample_even_spacing dist pts spacing with
    | none => none
    | some (.error e) => some (.error e)
    | some (.ok samples) =>
      let bearings := mkBearings bear samples
      let pts' := mkPoints 0 samples bearings
      some (.ok
        ⟨spacing,
         (pts'.getLastD junkPoint).cum_dist_m,
         pts'.length,
         bbox_wgs84 (pts'.map (fun p => (p.lon, p.lat))),
         pts'⟩)

/-! ## Geo primitives over `ℝ` (`app/utils/geo.py`) -/

noncomputable section

/-- `math.radians`. -/
def radians (x : ℝ) : ℝ := x * Real.pi / 180

/-- `math.degrees`. -/
def degreesOf (x : ℝ) : ℝ := x * 180 / Real.pi

/-- Python float `%` on real arguments: `a - b * ⌊a / b⌋` (result has the
sign of the divisor). -/
def pymod (a b : ℝ) : ℝ := a - b * ⌊a / b⌋

/-- `math.atan2 y x`: the argument of the complex number `x + y·i`. -/
def atan2 (y x : ℝ) : ℝ := Complex.arg ⟨x, y⟩

/-- `haversine_m` from `geo.py`. -/
def haversine_m (aLon aLat bLon bLat : ℝ) : ℝ :=
  let r : ℝ := 6371000
  let phi1 := radians aLat
  let phi2 := radians bLat
  let dphi := radians (bLat - aLat)
  let dlmb := radians (bLon - aLon)
  let s := Real.sin (dphi / 2) ^ 2 +
    Real.cos phi1 * Real.cos phi2 * Real.sin (dlmb / 2) ^ 2
  2 * r * Real.arcsin (Real.sqrt s)

/-- `bearing_deg_true` from `geo.py`. -/
def bearing_deg_true (aLon aLat bLon bLat : ℝ) : ℝ :=
  let phi1 := radians aLat
  let phi2 := radians bLat
  let dlmb := radians (bLon - aLon)
  let y := Real.sin dlmb * Real.cos phi2
  let x := Real.cos phi1 * Real.sin phi2 -
    Real.sin phi1 * Real.cos phi2 * Real.cos dlmb
  let brng := degreesOf (atan2 y x)
  pymod (brng + 360) 360

/-- The distance function actually passed through the pipeline. -/
def realDist : ℝ × ℝ → ℝ × ℝ → ℝ := fun a b => haversine_m a.1 a.2 b.1 b.2

/-- The bearing function actually passed through the pipeline. -/
def realBear : ℝ → ℝ → ℝ → ℝ → ℝ := bearing_deg_true

/-- `normalize_raw_route` instantiated with the real geo primitives: the
program's normalization pipeline. -/
def normalizeRoute (pts : List (ℝ × ℝ)) (spacing? : Option ℝ) :
    Option (Except RouteErr (NormalizedRoute ℝ)) :=
  normalize_raw_route realDist realBear pts spacing?

end

/-! ## Basic geo lemmas -/

theorem pymod_nonneg (a : ℝ) {b : ℝ} (hb : 0 < b) : 0 ≤ pymod a b := by
  have h : pymod a b = b * Int.fract (a / b) := by
    unfold pymod Int.fract
    field_simp
  rw [h]
  exact mul_nonneg hb.le (Int.fract_nonneg _)

theorem pymod_lt (a : ℝ) {b : ℝ} (hb : 0 < b) : pymod a b < b := by
  have h : pymod a b = b * Int.fract (a / b) := by
    unfold pymod Int.fract
    field_simp
  rw [h]
  calc b * Int.fract (a / b) < b * 1 := by
        exact (mul_lt_mul_left hb).mpr (Int.fract_lt_one _)
    _ = b := mul_one b

/-- Every bearing computed by `bearing_deg_true` lies in `[0, 360)`. -/
theorem bearing_deg_true_mem (aLon aLat bLon bLat : ℝ) :
    0 ≤ bearing_deg_true aLon aLat bLon bLat ∧
      bearing_deg_true aLon aLat bLon bLat < 360 := by
  unfold bearing_deg_true
  exact ⟨pymod_nonneg _ (by norm_num), pymod_lt _ (by norm_num)⟩

theorem haversine_nonneg (aLon aLat bLon bLat : ℝ) :
    0 ≤ haversine_m aLon aLat bLon bLat := by
  unfold haversine_m
  have h := Real.arcsin_nonneg.mpr (Real.sqrt_nonneg
    (Real.sin (radians (bLat - aLat) / 2) ^ 2 +
      Real.cos (radians aLat) * Real.cos (radians bLat) *
        Real.sin (radians (bLon - aLon) / 2) ^ 2))
  positivity

theorem haversine_self (lon lat : ℝ) : haversine_m lon lat lon lat = 0 := by
  unfold haversine_m radians
  simp

theorem realDist_nonneg (a b : ℝ × ℝ) : 0 ≤ realDist a b :=
  haversine_nonneg _ _ _ _

theorem realDist_self (a : ℝ × ℝ) : realDist a a = 0 := haversine_self _ _

/-! ## Lemmas about the target-generation loop -/

theorem targetsFuel_stop {spacing total d : F} (h : ¬d < total) :
    ∀ fuel, targetsFuel spacing total fuel d = some [] := by
  intro fuel
  cases fuel with
  | zero => simp [targetsFuel, h]
  | succ n => simp [targetsFuel, h]

theorem targetsFuel_isSome {spacing total : F} (hs : 0 < spacing) :
    ∀ (fuel : ℕ) (d : F), (total - d) / spacing < (fuel : F) →
      ∃ l, targetsFuel spacing total fuel d = some l := by
  intro fuel
  induction fuel with
  | zero =>
    intro d h
    refine ⟨[], ?_⟩
    have hd : ¬d < total := by
      simp only [Nat.cast_zero] at h
      have := (div_lt_iff₀ hs).mp h
      simp at this
      linarith
    exact targetsFuel_stop hd 0
  | succ n ih =>
    intro d h
    by_cases hd : d < total
    · have hstep : (total - (d + spacing)) / spacing < (n : F) := by
        have : (total - (d + spacing)) / spacing = (total - d) / spacing - 1 := by
          field_simp
          ring
        rw [this]
        push_cast at h ⊢
        linarith
      obtain ⟨l, hl⟩ := ih (d + spacing) hstep
      exact ⟨d :: l, by simp [targetsFuel, hd, hl]⟩
    · exact ⟨[], targetsFuel_stop hd _⟩

theorem targetsFuel_loopFuel_isSome {spacing total : F} (hs : 0 < spacing) :
    ∃ l, targetsFuel spacing total (loopFuelBound spacing total) spacing = some l := by
  apply targetsFuel_isSome hs
  have hle : total / spacing ≤ (⌈total / spacing⌉₊ : F) := Nat.le_ceil _
  have : (total - spacing) / spacing = total / spacing - 1 := by
    field_simp
  rw [this, loopFuelBound]
  push_cast
  linarith

theorem targetsFuel_none {spacing total : F} (hs : spacing ≤ 0) :
    ∀ (fuel : ℕ) (d : F), d < total → targetsFuel spacing total fuel d = none := by
  intro fuel
  induction fuel with
  | zero => intro d hd; simp [targetsFuel, hd]
  | succ n ih =>
    intro d hd
    have : d + spacing < total := by linarith
    simp [targetsFuel, hd, ih (d + spacing) this]

/-- Exact characterization of a successful run of the target loop: the
result is the arithmetic progression `d, d+spacing, …`, every element is
`< total`, and one more step would reach `total`. -/
theorem targetsFuel_char {spacing total : F} :
    ∀ (fuel : ℕ) (d : F) (l : List F), targetsFuel spacing total fuel d = some l →
      l = (List.range l.length).map (fun k : ℕ => d + (k : F) * spacing) ∧
        (∀ k : ℕ, k < l.length → d + (k : F) * spacing < total) ∧
        total ≤ d + (l.length : F) * spacing := by
  intro fuel
  induction fuel with
  | zero =>
    intro d l h
    by_cases hd : d < total
    · simp [targetsFuel, hd] at h
    · simp [targetsFuel, hd] at h
      subst h
      refine ⟨by simp, by simp, ?_⟩
      simp
      linarith [not_lt.mp hd]
  | succ n ih =>
    intro d l h
    by_cases hd : d < total
    · simp only [targetsFuel, if_pos hd, Option.map_eq_some'] at h
      obtain ⟨l', hl', rfl⟩ := h
      obtain ⟨hmap, hlt, hge⟩ := ih (d + spacing) l' hl'
      refine ⟨?_, ?_, ?_⟩
      · simp only [List.length_cons, List.range_succ_eq_map, List.map_cons,
          List.map_map]
        refine List.cons_eq_cons.mpr ⟨by simp, ?_⟩
        conv_lhs => rw [hmap]
        apply List.map_congr_left
        intro k _
        simp only [Function.comp_apply]
        push_cast
        ring
      · intro k hk
        cases k with
        | zero => simpa using hd
        | succ m =>
          have hm : m < l'.length := by simpa using hk
          have := hlt m hm
          push_cast
          push_cast at this
          linarith
      · have := hge
        simp only [List.length_cons]
        push_cast
        push_cast at this
        linarith
    · simp [targetsFuel, hd] at h
      subst h
      refine ⟨by simp, by simp, ?_⟩
      simp
      linarith [not_lt.mp hd]

/-! ## The resampler cursor walk vs. a per-target fresh scan -/

/-- Cumulative length of the first `n` segments. -/
def cumTake (segs : List (Seg F)) (n : ℕ) : F :=
  ((segs.take n).map (fun s => s.len)).sum

/-- Reference formulation of the body of the emission loop: a fresh scan
from the start of the segment list for a single target `t`. -/
def scanPoint (dflt : Seg F) : List (Seg F) → F → F → F × F
  | [], _, _ => (dflt.bLat, dflt.bLon)
  | s :: rest, c, t =>
    if c + s.len < t then scanPoint dflt rest (c + s.len) t
    else if s.len = 0 then (s.bLat, s.bLon)
    else
      let frac := (t - c) / s.len
      (s.aLat + frac * (s.bLat - s.aLat), s.aLon + frac * (s.bLon - s.aLon))

/-- The `(lat, lon)` pair emitted for target `t`, via a fresh scan. -/
def pointAtDist (segs : List (Seg F)) (t : F) : F × F :=
  scanPoint (segs.getLastD junkSeg) segs 0 t

/-- Reference formulation of the emission loop: one fresh scan per target. -/
def specSamples (segs : List (Seg F)) : List F → F → Bool → List (RSample F)
  | [], _, _ => []
  | t :: rest, lastCum, isFirst =>
    ⟨(pointAtDist segs t).1, (pointAtDist segs t).2,
      if isFirst then 0 else t - lastCum, t⟩ :: specSamples segs rest t false

theorem cumTake_zero (segs : List (Seg F)) : cumTake segs 0 = 0 := by
  simp [cumTake]

theorem cumTake_succ (segs : List (Seg F)) {n : ℕ} (h : n < segs.length) :
    cumTake segs (n + 1) = cumTake segs n + (segs.get ⟨n, h⟩).len := by
  unfold cumTake
  simp only [List.map_take]
  rw [List.take_succ, List.getElem?_eq_getElem (by simpa using h)]
  simp [List.get_eq_getElem]

theorem advanceCursor_unfold (segs : List (Seg F)) (t : F) (segIdx : ℕ) (cum : F) :
    advanceCursor segs t segIdx cum =
      if h : segIdx < segs.length then
        (if cum + (segs.get ⟨segIdx, h⟩).len < t then
          advanceCursor segs t (segIdx + 1) (cum + (segs.get ⟨segIdx, h⟩).len)
        else (segIdx, cum))
      else (segIdx, cum) := by
  conv_lhs => rw [advanceCursor]

/-- Postcondition of the cursor-advancing loop: it lands on the prefix sum
of its final index, every segment it skipped ends strictly before `t`, and
it only stops at a segment not ending before `t` (or at the list's end). -/
theorem advanceCursor_spec (segs : List (Seg F)) (t : F) :
    ∀ (k segIdx : ℕ) (cum : F), segs.length - segIdx ≤ k →
      segIdx ≤ segs.length → cum = cumTake segs segIdx →
      segIdx ≤ (advanceCursor segs t segIdx cum).1 ∧
        (advanceCursor segs t segIdx cum).1 ≤ segs.length ∧
        (advanceCursor segs t segIdx cum).2 =
          cumTake segs (advanceCursor segs t segIdx cum).1 ∧
        (∀ j : ℕ, segIdx ≤ j → j < (advanceCursor segs t segIdx cum).1 →
          cumTake segs (j + 1) < t) ∧
        (∀ h : (advanceCursor segs t segIdx cum).1 < segs.length,
          ¬((advanceCursor segs t segIdx cum).2 +
            (segs.get ⟨(advanceCursor segs t segIdx cum).1, h⟩).len < t)) := by
  intro k
  induction k with
  | zero =>
    intro segIdx cum hk hle hcum
    have hnot : ¬segIdx < segs.length := by omega
    rw [advanceCursor_unfold, dif_neg hnot]
    exact ⟨le_refl _, hle, hcum,
      fun j hj1 hj2 => absurd hj2 (Nat.not_lt.mpr hj1),
      fun h => absurd h hnot⟩
  | succ k ih =>
    intro segIdx cum hk hle hcum
    by_cases h : segIdx < segs.length
    · rw [advanceCursor_unfold, dif_pos h]
      by_cases hadv : cum + (segs.get ⟨segIdx, h⟩).len < t
      · rw [if_pos hadv]
        have hcum' : cum + (segs.get ⟨segIdx, h⟩).len = cumTake segs (segIdx + 1) := by
          rw [cumTake_succ segs h, hcum]
        obtain ⟨h1, h2, h3, h4, h5⟩ :=
          ih (segIdx + 1) (cum + (segs.get ⟨segIdx, h⟩).len) (by omega) (by omega) hcum'
        refine ⟨by omega, h2, h3, ?_, h5⟩
        intro j hj1 hj2
        rcases Nat.eq_or_lt_of_le hj1 with rfl | hj1'
        · rw [← hcum']; exact hadv
        · exact h4 j hj1' hj2
      · rw [if_neg hadv]
        exact ⟨le_refl _, hle, hcum,
          fun j hj1 hj2 => absurd hj2 (Nat.not_lt.mpr hj1),
          fun _ => hadv⟩
    · rw [advanceCursor_unfold, dif_neg h]
      exact ⟨le_refl _, hle, hcum,
        fun j hj1 hj2 => absurd hj2 (Nat.not_lt.mpr hj1),
        fun h' => absurd h' h⟩

/-- A fresh scan may start after any prefix of segments all of which end
strictly before `t`. -/
theorem scanPoint_skip (dflt : Seg F) (segs : List (Seg F)) (t : F) :
    ∀ n : ℕ, n ≤ segs.length → (∀ j : ℕ, j < n → cumTake segs (j + 1) < t) →
      scanPoint dflt segs 0 t = scanPoint dflt (segs.drop n) (cumTake segs n) t := by
  intro n
  induction n with
  | zero => intro _ _; simp [cumTake_zero]
  | succ n ih =>
    intro hle hskip
    have hn : n < segs.length := by omega
    have ihe := ih (by omega) (fun j hj => hskip j (by omega))
    rw [ihe, List.drop_eq_getElem_cons hn]
    have hget : segs[n] = segs.get ⟨n, hn⟩ := rfl
    rw [scanPoint]
    have hcond : cumTake segs n + segs[n].len < t := by
      rw [hget, ← cumTake_succ segs hn]
      exact hskip n (by omega)
    rw [if_pos hcond]
    rw [hget, ← cumTake_succ segs hn]

/-- At a stopped cursor state, the emitted point agrees with the rest of a
fresh scan. -/
theorem samplePoint_eq_scan (segs : List (Seg F)) (i : ℕ) (cum t : F)
    (hle : i ≤ segs.length)
    (hstop : ∀ h : i < segs.length, ¬(cum + (segs.get ⟨i, h⟩).len < t)) :
    samplePoint segs i cum t =
      scanPoint (segs.getLastD junkSeg) (segs.drop i) cum t := by
  by_cases h : i < segs.length
  · rw [List.drop_eq_getElem_cons h]
    have hget : segs[i] = segs.get ⟨i, h⟩ := rfl
    rw [scanPoint, hget, if_neg (hstop h)]
    rw [samplePoint, dif_pos h]
  · have hlen : i = segs.length := by omega
    subst hlen
    rw [List.drop_length, samplePoint, dif_neg h, scanPoint]

/-- The cursor-carrying emission loop is, for sorted targets, equal to one
fresh scan per target. -/
theorem emitAux_eq_spec (segs : List (Seg F)) :
    ∀ (targets : List F) (segIdx : ℕ) (cum lastCum : F) (isFirst : Bool),
      segIdx ≤ segs.length → cum = cumTake segs segIdx →
      (∀ t ∈ targets, ∀ j : ℕ, j < segIdx → cumTake segs (j + 1) < t) →
      targets.Sorted (· ≤ ·) →
      emitAux segs targets segIdx cum lastCum isFirst =
        specSamples segs targets lastCum isFirst := by
  intro targets
  induction targets with
  | nil => intro _ _ _ _ _ _ _ _; rfl
  | cons t rest ih =>
    intro segIdx cum lastCum isFirst hle hcum hpast hsorted
    obtain ⟨h1, h2, h3, h4, h5⟩ :=
      advanceCursor_spec segs t (segs.length - segIdx) segIdx cum (le_refl _) hle hcum
    have hskip : ∀ j : ℕ, j < (advanceCursor segs t segIdx cum).1 →
        cumTake segs (j + 1) < t := by
      intro j hj
      by_cases hji : j < segIdx
      · exact hpast t (List.mem_cons_self _ _) j hji
      · exact h4 j (by omega) hj
    have hpoint :
        samplePoint segs (advanceCursor segs t segIdx cum).1
          (advanceCursor segs t segIdx cum).2 t = pointAtDist segs t := by
      rw [samplePoint_eq_scan segs _ _ t h2 h5, h3, pointAtDist,
        scanPoint_skip (segs.getLastD junkSeg) segs t
          (advanceCursor segs t segIdx cum).1 h2 hskip]
    rw [emitAux, specSamples, hpoint]
    refine congrArg₂ _ rfl ?_
    apply ih
    · exact h2
    · exact h3
    · intro t' ht' j hj
      by_cases hji : j < segIdx
      · exact hpast t' (List.mem_cons_of_mem _ ht') j hji
      · calc cumTake segs (j + 1) < t := h4 j (by omega) hj
          _ ≤ t' := List.rel_of_sorted_cons hsorted _ ht'
    · exact hsorted.of_cons

/-! ## Structural lemmas about emission, bearings and point assembly -/

theorem emitAux_length (segs : List (Seg F)) :
    ∀ (ts : List F) (i : ℕ) (c lc : F) (b : Bool),
      (emitAux segs ts i c lc b).length = ts.length := by
  intro ts
  induction ts with
  | nil => intro _ _ _ _; rfl
  | cons t rest ih =>
    intro i c lc b
    rw [emitAux]
    simp only [List.length_cons]
    rw [ih]

theorem emitAux_map_cum (segs : List (Seg F)) :
    ∀ (ts : List F) (i : ℕ) (c lc : F) (b : Bool),
      (emitAux segs ts i c lc b).map (fun s => s.cum) = ts := by
  intro ts
  induction ts with
  | nil => intro _ _ _ _; rfl
  | cons t rest ih =>
    intro i c lc b
    rw [emitAux]
    simp only [List.map_cons]
    rw [ih]

theorem getLast?_cons_of_ne {α : Type} (a : α) {l : List α} (h : l ≠ []) :
    (a :: l).getLast? = l.getLast? := by
  cases l with
  | nil => exact absurd rfl h
  | cons b l' => exact List.getLast?_cons_cons

theorem specSamples_ne_nil (segs : List (Seg F)) (t : F) (ts : List F)
    (lc : F) (b : Bool) : specSamples segs (t :: ts) lc b ≠ [] := by
  rw [specSamples]
  exact List.cons_ne_nil _ _

theorem specSamples_getLast (segs : List (Seg F)) :
    ∀ (ts : List F) (lc : F) (b : Bool) (tl : F), ts.getLast? = some tl →
      ∃ sd, (specSamples segs ts lc b).getLast? =
        some ⟨(pointAtDist segs tl).1, (pointAtDist segs tl).2, sd, tl⟩ := by
  intro ts
  induction ts with
  | nil => intro _ _ _ h; simp at h
  | cons t rest ih =>
    intro lc b tl h
    cases rest with
    | nil =>
      simp only [List.getLast?_singleton, Option.some_inj] at h
      subst h
      exact ⟨if b then 0 else t - lc, rfl⟩
    | cons t' rest' =>
      rw [List.getLast?_cons_cons] at h
      obtain ⟨sd, hsd⟩ := ih t false tl h
      refine ⟨sd, ?_⟩
      rw [specSamples, getLast?_cons_of_ne _ (specSamples_ne_nil segs t' rest' t false)]
      exact hsd

theorem mkPoints_length :
    ∀ (i : ℕ) (ss : List (RSample F)) (bs : List F),
      bs.length = ss.length → (mkPoints i ss bs).length = ss.length := by
  intro i ss
  induction ss generalizing i with
  | nil => intro bs _; rfl
  | cons s ss' ih =>
    intro bs h
    cases bs with
    | nil => simp at h
    | cons b bs' =>
      rw [mkPoints]
      simp only [List.length_cons] at h ⊢
      rw [ih (i + 1) bs' (by omega)]

theorem mkPoints_map_cum :
    ∀ (i : ℕ) (ss : List (RSample F)) (bs : List F),
      bs.length = ss.length →
      (mkPoints i ss bs).map (fun p => p.cum_dist_m) = ss.map (fun s => s.cum) := by
  intro i ss
  induction ss generalizing i with
  | nil => intro bs _; rfl
  | cons s ss' ih =>
    intro bs h
    cases bs with
    | nil => simp at h
    | cons b bs' =>
      rw [mkPoints]
      simp only [List.length_cons] at h
      simp only [List.map_cons]
      rw [ih (i + 1) bs' (by omega)]

theorem mkPoints_mem_bearing :
    ∀ (i : ℕ) (ss : List (RSample F)) (bs : List F) (p : NormalizedPoint F),
      p ∈ mkPoints i ss bs → p.bearing_deg_true ∈ bs := by
  intro i ss
  induction ss generalizing i with
  | nil => intro bs p h; simp [mkPoints] at h
  | cons s ss' ih =>
    intro bs p h
    cases bs with
    | nil => simp [mkPoints] at h
    | cons b bs' =>
      rw [mkPoints] at h
      rcases List.mem_cons.mp h with rfl | h'
      · exact List.mem_cons_self _ _
      · exact List.mem_cons_of_mem _ (ih (i + 1) bs' p h')

theorem bearingSeq_length (bear : F → F → F → F → F) :
    ∀ ss : List (RSample F), (bearingSeq bear ss).length = ss.length - 1 := by
  intro ss
  induction ss with
  | nil => rfl
  | cons s ss' ih =>
    cases ss' with
    | nil => rfl
    | cons s' rest =>
      rw [bearingSeq]
      simp only [List.length_cons] at ih ⊢
      omega

theorem mkBearings_length (bear : F → F → F → F → F) (ss : List (RSample F))
    (h : ss ≠ []) : (mkBearings bear ss).length = ss.length := by
  have hlen := bearingSeq_length bear ss
  have hpos : 1 ≤ ss.length := by
    cases ss with
    | nil => exact absurd rfl h
    | cons a l => simp
  rw [mkBearings]
  cases hb : bearingSeq bear ss with
  | nil =>
    rw [hb] at hlen
    simp only [List.length_nil] at hlen
    show ([(0 : F)]).length = ss.length
    simp only [List.length_singleton]
    omega
  | cons b bs =>
    rw [hb] at hlen
    simp only [List.length_cons] at hlen
    show ((b :: bs) ++ [(b :: bs).getLastD 0]).length = ss.length
    simp only [List.length_append, List.length_cons, List.length_singleton,
      List.length_nil]
    omega

theorem bearingSeq_mem (bear : F → F → F → F → F) :
    ∀ (ss : List (RSample F)) (x : F), x ∈ bearingSeq bear ss →
      ∃ a b c d, x = bear a b c d := by
  intro ss
  induction ss with
  | nil => intro x h; simp [bearingSeq] at h
  | cons s ss' ih =>
    intro x h
    cases ss' with
    | nil => simp [bearingSeq] at h
    | cons s' rest =>
      rw [bearingSeq] at h
      rcases List.mem_cons.mp h with rfl | h'
      · exact ⟨_, _, _, _, rfl⟩
      · exact ih x h'

theorem mkBearings_mem (bear : F → F → F → F → F) (ss : List (RSample F)) (x : F)
    (h : x ∈ mkBearings bear ss) : x = 0 ∨ ∃ a b c d, x = bear a b c d := by
  rw [mkBearings] at h
  cases hb : bearingSeq bear ss with
  | nil =>
    rw [hb] at h
    have h' : x ∈ ([(0 : F)]) := h
    simp at h'
    exact Or.inl h'
  | cons b bs =>
    rw [hb] at h
    have h' : x ∈ (b :: bs) ++ [(b :: bs).getLastD 0] := h
    rcases List.mem_append.mp h' with hm | hm
    · exact Or.inr (bearingSeq_mem bear ss x (by rw [hb]; exact hm))
    · have hx : x = (b :: bs).getLastD 0 := by simpa using hm
      have hmem : (b :: bs).getLastD 0 ∈ (0 : F) :: b :: bs :=
        List.getLastD_mem_cons _ _
      rcases List.mem_cons.mp hmem with h0 | hmem'
      · exact Or.inl (by rw [hx, h0])
      · exact Or.inr (bearingSeq_mem bear ss x (by rw [hb, hx]; exact hmem'))

/-! ## De-duplication and validation lemmas -/

theorem dedupGo_cons (last p : F × F) (rest : List (F × F)) :
    dedupGo last (p :: rest) =
      if p = last then dedupGo last rest else p :: dedupGo p rest := rfl

theorem dedupGo_chain_ne : ∀ (l : List (F × F)) (last : F × F),
    List.Chain' (· ≠ ·) (last :: dedupGo last l) := by
  intro l
  induction l with
  | nil => intro last; simp [dedupGo]
  | cons p rest ih =>
    intro last
    rw [dedupGo]
    by_cases h : p = last
    · rw [if_pos h]; exact ih last
    · rw [if_neg h]
      exact List.Chain'.cons (fun he => h he.symm) (ih p)

theorem dedup_chain_ne (pts : List (F × F)) :
    List.Chain' (· ≠ ·) (dedupConsecutive pts) := by
  cases pts with
  | nil => simp [dedupConsecutive]
  | cons p rest => exact dedupGo_chain_ne rest p

theorem dedupGo_eq_self : ∀ (l : List (F × F)) (last : F × F),
    List.Chain' (· ≠ ·) (last :: l) → dedupGo last l = l := by
  intro l
  induction l with
  | nil => intro last _; rfl
  | cons p rest ih =>
    intro last h
    rw [List.chain'_cons] at h
    rw [dedupGo, if_neg (fun he => h.1 he.symm)]
    rw [ih p h.2]

theorem dedup_eq_self (pts : List (F × F)) (h : List.Chain' (· ≠ ·) pts) :
    dedupConsecutive pts = pts := by
  cases pts with
  | nil => rfl
  | cons p rest =>
    rw [dedupConsecutive, dedupGo_eq_self rest p h]

theorem dedup_idem (pts : List (F × F)) :
    dedupConsecutive (dedupConsecutive pts) = dedupConsecutive pts :=
  dedup_eq_self _ (dedup_chain_ne pts)

theorem dedupGo_length_le : ∀ (l : List (F × F)) (last : F × F),
    (dedupGo last l).length ≤ l.length := by
  intro l
  induction l with
  | nil => intro _; simp [dedupGo]
  | cons p rest ih =>
    intro last
    rw [dedupGo]
    by_cases h : p = last
    · rw [if_pos h]
      calc (dedupGo last rest).length ≤ rest.length := ih last
        _ ≤ (p :: rest).length := by simp
    · rw [if_neg h]
      simp only [List.length_cons]
      exact Nat.succ_le_succ (ih p)

theorem dedup_length_le (pts : List (F × F)) :
    (dedupConsecutive pts).length ≤ pts.length := by
  cases pts with
  | nil => simp [dedupConsecutive]
  | cons p rest =>
    rw [dedupConsecutive]
    simp only [List.length_cons]
    exact Nat.succ_le_succ (dedupGo_length_le rest p)

theorem dedupGo_getLastD : ∀ (l : List (F × F)) (last : F × F),
    (dedupGo last l).getLastD last = l.getLastD last := by
  intro l
  induction l with
  | nil => intro _; rfl
  | cons p rest ih =>
    intro last
    rw [dedupGo]
    by_cases h : p = last
    · rw [if_pos h, List.getLastD_cons, ih last, h]
    · rw [if_neg h, List.getLastD_cons, List.getLastD_cons, ih p]

theorem dedup_getLastD (pts : List (F × F)) (d : F × F) (h : pts ≠ []) :
    (dedupConsecutive pts).getLastD d = pts.getLastD d := by
  cases pts with
  | nil => exact absurd rfl h
  | cons p rest =>
    rw [dedupConsecutive, List.getLastD_cons, List.getLastD_cons,
      dedupGo_getLastD rest p]

/-- Adjacent-pair facts about the de-duplicated list transfer to the raw
list, for its unequal adjacent pairs. -/
theorem chain_of_dedup (P : F × F → F × F → Prop) :
    ∀ pts : List (F × F), List.Chain' P (dedupConsecutive pts) →
      List.Chain' (fun a b => a ≠ b → P a b) pts := by
  intro pts
  induction pts with
  | nil => intro _; simp
  | cons a tail ih =>
    cases tail with
    | nil => intro _; simp
    | cons b rest =>
      intro h
      by_cases hab : b = a
      · subst hab
        have hd : dedupConsecutive (b :: b :: rest) = dedupConsecutive (b :: rest) := by
          rw [dedupConsecutive, dedupConsecutive, dedupGo, if_pos rfl]
        rw [hd] at h
        rw [List.chain'_cons]
        exact ⟨fun he => absurd rfl he, ih h⟩
      · have hd : dedupConsecutive (a :: b :: rest) =
            a :: dedupConsecutive (b :: rest) := by
          rw [dedupConsecutive, dedupGo, if_neg hab, dedupConsecutive]
        rw [hd] at h
        have hh : P a b ∧ List.Chain' P (dedupConsecutive (b :: rest)) := by
          rw [dedupConsecutive] at h ⊢
          rw [List.chain'_cons] at h
          exact ⟨h.1, h.2⟩
        rw [List.chain'_cons]
        exact ⟨fun _ => hh.1, ih hh.2⟩

/-- Any list either has no consecutive duplicates or splits around one. -/
theorem dedup_split : ∀ pts : List (F × F),
    List.Chain' (· ≠ ·) pts ∨ ∃ u x v, pts = u ++ x :: x :: v := by
  intro pts
  induction pts with
  | nil => exact Or.inl (by simp)
  | cons a tail ih =>
    cases tail with
    | nil => exact Or.inl (by simp)
    | cons b rest =>
      by_cases hab : a = b
      · exact Or.inr ⟨[], a, rest, by rw [hab]; rfl⟩
      · rcases ih with hc | ⟨u, x, v, huv⟩
        · exact Or.inl (List.chain'_cons.mpr ⟨hab, hc⟩)
        · exact Or.inr ⟨a :: u, x, v, by rw [huv]; rfl⟩

theorem dedupGo_collapse : ∀ (u : List (F × F)) (last x : F × F) (v : List (F × F)),
    dedupGo last (u ++ x :: x :: v) = dedupGo last (u ++ x :: v) := by
  intro u
  induction u with
  | nil =>
    intro last x v
    simp only [List.nil_append]
    rw [dedupGo_cons, dedupGo_cons]
    by_cases h : x = last
    · rw [if_pos h, if_pos h]
    · rw [if_neg h, if_neg h, dedupGo_cons, if_pos rfl]
  | cons a u' ih =>
    intro last x v
    simp only [List.cons_append]
    rw [dedupGo_cons, dedupGo_cons]
    by_cases h : a = last
    · rw [if_pos h, if_pos h, ih]
    · rw [if_neg h, if_neg h, ih]

theorem dedup_collapse (u : List (F × F)) (x : F × F) (v : List (F × F)) :
    dedupConsecutive (u ++ x :: x :: v) = dedupConsecutive (u ++ x :: v) := by
  cases u with
  | nil =>
    simp only [List.nil_append]
    rw [dedupConsecutive, dedupConsecutive, dedupGo, if_pos rfl]
  | cons a u' =>
    simp only [List.cons_append]
    rw [dedupConsecutive, dedupConsecutive, dedupGo_collapse]

theorem chain_collapse (R : F × F → F × F → Prop) (u : List (F × F)) (x : F × F)
    (v : List (F × F)) (h : List.Chain' R (u ++ x :: x :: v)) :
    List.Chain' R (u ++ x :: v) := by
  rw [List.chain'_append] at h ⊢
  refine ⟨h.1, ?_, ?_⟩
  · have h2 := h.2.1
    rw [List.chain'_cons] at h2
    exact h2.2
  · intro y hy z hz
    refine h.2.2 y hy z ?_
    simp only [List.head?_cons] at hz ⊢
    exact hz

theorem checkSegs_ok_iff (dist : F × F → F × F → F) :
    ∀ l : List (F × F), checkSegs dist l = .ok () ↔
      List.Chain' (fun a b => 0 < dist a b ∧ dist a b ≤ MAX_SEGMENT_M) l := by
  intro l
  induction l with
  | nil => simp [checkSegs]
  | cons a tail ih =>
    cases tail with
    | nil => simp [checkSegs]
    | cons b rest =>
      rw [checkSegs, List.chain'_cons]
      by_cases h1 : dist a b ≤ 0
      · rw [if_pos h1]
        simp only [reduceCtorEq, false_iff, not_and]
        intro hab
        exact absurd h1 (not_le.mpr hab.1)
      · rw [if_neg h1]
        by_cases h2 : dist a b > MAX_SEGMENT_M
        · rw [if_pos h2]
          simp only [reduceCtorEq, false_iff, not_and]
          intro hab
          exact absurd hab.2 (not_le.mpr h2)
        · rw [if_neg h2]
          rw [ih]
          constructor
          · intro hc
            exact ⟨⟨not_le.mp h1, not_lt.mp h2⟩, hc⟩
          · intro hc
            exact hc.2

theorem checkSegs_error (dist : F × F → F × F → F) :
    ∀ (l : List (F × F)) (e : RouteErr), checkSegs dist l = .error e →
      e = RouteErr.dupAdjacent ∨ e = RouteErr.segTooLong := by
  intro l
  induction l with
  | nil => intro e h; simp [checkSegs] at h
  | cons a tail ih =>
    cases tail with
    | nil => intro e h; simp [checkSegs] at h
    | cons b rest =>
      intro e h
      rw [checkSegs] at h
      by_cases h1 : dist a b ≤ 0
      · rw [if_pos h1] at h
        exact Or.inl (by injection h with h'; exact h'.symm)
      · rw [if_neg h1] at h
        by_cases h2 : dist a b > MAX_SEGMENT_M
        · rw [if_pos h2] at h
          exact Or.inr (by injection h with h'; exact h'.symm)
        · rw [if_neg h2] at h
          exact ih e h

theorem polyline_nonneg (dist : F × F → F × F → F)
    (hd : ∀ a b, 0 ≤ dist a b) : ∀ l : List (F × F), 0 ≤ polyline_length_m dist l := by
  intro l
  induction l with
  | nil => simp [polyline_length_m]
  | cons a tail ih =>
    cases tail with
    | nil => simp [polyline_length_m]
    | cons b rest =>
      rw [polyline_length_m]
      have := hd a b
      have := ih
      positivity

theorem polyline_pos (dist : F × F → F × F → F) (hd : ∀ a b, 0 ≤ dist a b)
    (a b : F × F) (rest : List (F × F)) (hab : 0 < dist a b) :
    0 < polyline_length_m dist (a :: b :: rest) := by
  rw [polyline_length_m]
  have h2 := polyline_nonneg dist hd (b :: rest)
  linarith

/-- Full characterization of a successful guardrail validation. -/
theorem validate_ok_iff (dist : F × F → F × F → F) (pts : List (F × F)) :
    validate_route_guardrails dist pts = .ok () ↔
      2 ≤ (dedupConsecutive pts).length ∧
        checkSegs dist (dedupConsecutive pts) = .ok () ∧
        MIN_ROUTE_M ≤ polyline_length_m dist (dedupConsecutive pts) ∧
        polyline_length_m dist (dedupConsecutive pts) ≤ MAX_ROUTE_M := by
  unfold validate_route_guardrails
  by_cases h1 : (dedupConsecutive pts).length < 2
  · rw [if_pos h1]
    simp only [reduceCtorEq, false_iff, not_and]
    intro h2
    omega
  · rw [if_neg h1]
    cases hc : checkSegs dist (dedupConsecutive pts) with
    | error e =>
      constructor
      · intro h
        have h' : (Except.error e : Except RouteErr Unit) = .ok () := h
        simp at h'
      · rintro ⟨-, hok, -⟩
        simp at hok
    | ok u =>
      cases u
      by_cases h3 : polyline_length_m dist (dedupConsecutive pts) < MIN_ROUTE_M
      · rw [if_pos h3]
        constructor
        · intro h; exact absurd h (by simp)
        · rintro ⟨-, -, hmin, -⟩
          exact absurd h3 (not_lt.mpr hmin)
      · rw [if_neg h3]
        by_cases h4 : polyline_length_m dist (dedupConsecutive pts) > MAX_ROUTE_M
        · rw [if_pos h4]
          constructor
          · intro h; exact absurd h (by simp)
          · rintro ⟨-, -, -, hmax⟩
            exact absurd h4 (not_lt.mpr hmax)
        · rw [if_neg h4]
          constructor
          · intro _
            exact ⟨by omega, rfl, not_lt.mp h3, not_lt.mp h4⟩
          · intro _
            rfl

/-! ## Segment-list lemmas -/

theorem getLastD_congr {α : Type} {l : List α} (h : l ≠ []) (d₁ d₂ : α) :
    l.getLastD d₁ = l.getLastD d₂ := by
  cases l with
  | nil => exact absurd rfl h
  | cons x l' => rw [List.getLastD_cons, List.getLastD_cons]

theorem chain'_of_forall {α : Type} {R : α → α → Prop} (h : ∀ a b, R a b) :
    ∀ l : List α, List.Chain' R l := by
  intro l
  induction l with
  | nil => simp
  | cons a tail ih =>
    cases tail with
    | nil => simp
    | cons b rest => exact List.chain'_cons.mpr ⟨h a b, ih⟩

theorem buildSegs_cons (dist : F × F → F × F → F) (a b : F × F)
    (rest : List (F × F)) :
    buildSegs dist (a :: b :: rest) =
      ⟨a.1, a.2, b.1, b.2, dist a b⟩ :: buildSegs dist (b :: rest) := rfl

theorem buildSegs_sum (dist : F × F → F × F → F) :
    ∀ l : List (F × F),
      ((buildSegs dist l).map (fun s => s.len)).sum = polyline_length_m dist l := by
  intro l
  induction l with
  | nil => rfl
  | cons a tail ih =>
    cases tail with
    | nil => rfl
    | cons b rest =>
      rw [buildSegs_cons, polyline_length_m]
      simp only [List.map_cons, List.sum_cons]
      rw [ih]

theorem buildSegs_append (dist : F × F → F × F → F) :
    ∀ (u : List (F × F)) (x : F × F) (w : List (F × F)),
      buildSegs dist (u ++ x :: w) =
        buildSegs dist (u ++ [x]) ++ buildSegs dist (x :: w) := by
  intro u
  induction u with
  | nil =>
    intro x w
    simp only [List.nil_append]
    cases w with
    | nil => simp [buildSegs]
    | cons c w' => rfl
  | cons a u' ih =>
    intro x w
    cases u' with
    | nil =>
      simp only [List.cons_append, List.nil_append]
      rw [buildSegs_cons]
      rfl
    | cons b u'' =>
      simp only [List.cons_append]
      rw [buildSegs_cons, buildSegs_cons]
      have := ih x w
      simp only [List.cons_append] at this
      rw [this]
      rfl

theorem buildSegs_forall (dist : F × F → F × F → F) (P : Seg F → Prop) :
    ∀ l : List (F × F),
      List.Chain' (fun a b => P ⟨a.1, a.2, b.1, b.2, dist a b⟩) l →
      ∀ s ∈ buildSegs dist l, P s := by
  intro l
  induction l with
  | nil => intro _ s hs; simp [buildSegs] at hs
  | cons a tail ih =>
    cases tail with
    | nil => intro _ s hs; simp [buildSegs] at hs
    | cons b rest =>
      intro hc s hs
      rw [List.chain'_cons] at hc
      rw [buildSegs_cons] at hs
      rcases List.mem_cons.mp hs with rfl | hs'
      · exact hc.1
      · exact ih hc.2 s hs'

theorem buildSegs_getLast (dist : F × F → F × F → F) :
    ∀ pts : List (F × F), 2 ≤ pts.length →
      ((buildSegs dist pts).getLastD junkSeg).bLon = (pts.getLastD (0, 0)).1 ∧
        ((buildSegs dist pts).getLastD junkSeg).bLat = (pts.getLastD (0, 0)).2 := by
  intro pts
  induction pts with
  | nil => intro h; simp at h
  | cons a tail ih =>
    cases tail with
    | nil => intro h; simp at h
    | cons b rest =>
      intro _
      cases rest with
      | nil =>
        rw [buildSegs_cons]
        simp [buildSegs, List.getLastD_cons]
      | cons c rest' =>
        rw [buildSegs_cons, List.getLastD_cons]
        have hne : buildSegs dist (b :: c :: rest') ≠ [] := by
          rw [buildSegs_cons]; exact List.cons_ne_nil _ _
        rw [getLastD_congr hne _ junkSeg]
        have hih := ih (by simp)
        rw [List.getLastD_cons (0, 0) a (b :: c :: rest')]
        rw [getLastD_congr (List.cons_ne_nil b (c :: rest')) a ((0 : F), (0 : F))]
        exact hih

/-- Splitting the raw segment list around one consecutive duplicate. -/
theorem buildSegs_dup_split (dist : F × F → F × F → F) (u : List (F × F))
    (x : F × F) (v : List (F × F)) :
    buildSegs dist (u ++ x :: x :: v) =
      buildSegs dist (u ++ [x]) ++
        (⟨x.1, x.2, x.1, x.2, dist x x⟩ :: buildSegs dist (x :: v)) := by
  rw [buildSegs_append dist u x (x :: v)]
  rfl

theorem polyline_collapse (dist : F × F → F × F → F) (u : List (F × F))
    (x : F × F) (v : List (F × F)) :
    polyline_length_m dist (u ++ x :: x :: v) =
      dist x x + polyline_length_m dist (u ++ x :: v) := by
  rw [← buildSegs_sum, ← buildSegs_sum, buildSegs_dup_split,
    buildSegs_append dist u x v]
  simp only [List.map_append, List.sum_append, List.map_cons, List.sum_cons]
  ring

/-! ## Inserting a zero-length degenerate segment does not change the scan -/

theorem getLastD_append_right {α : Type} (l₁ : List α) {l₂ : List α}
    (h : l₂ ≠ []) (d : α) : (l₁ ++ l₂).getLastD d = l₂.getLastD d := by
  induction l₁ with
  | nil => rfl
  | cons a l₁' ih =>
    rw [List.cons_append, List.getLastD_cons]
    have hne : l₁' ++ l₂ ≠ [] := fun hemp => h (List.append_eq_nil.mp hemp).2
    rw [getLastD_congr hne a d, ih]

theorem scanPoint_congr {d₁ d₂ : Seg F} (hlat : d₁.bLat = d₂.bLat)
    (hlon : d₁.bLon = d₂.bLon) :
    ∀ (l : List (Seg F)) (c t : F), scanPoint d₁ l c t = scanPoint d₂ l c t := by
  intro l
  induction l with
  | nil => intro c t; rw [scanPoint, scanPoint, hlat, hlon]
  | cons s rest ih =>
    intro c t
    rw [scanPoint, scanPoint]
    by_cases h : c + s.len < t
    · rw [if_pos h, if_pos h, ih]
    · rw [if_neg h, if_neg h]

/-- Inserting one zero-length segment that degenerates to the shared corner
point `z` does not change the scanned point, for any target at or after the
current cumulative distance. -/
theorem scan_insert_zero (z dL dR : Seg F)
    (hz0 : z.len = 0) (hzlat : z.aLat = z.bLat) (hzlon : z.aLon = z.bLon)
    (hdlat : dL.bLat = dR.bLat) (hdlon : dL.bLon = dR.bLon) :
    ∀ (sA sB : List (Seg F)) (c t : F),
      (∀ s ∈ sB, 0 ≤ s.len) →
      (match sB with
        | [] => dR.bLat = z.bLat ∧ dR.bLon = z.bLon
        | s :: _ => s.aLat = z.bLat ∧ s.aLon = z.bLon ∧
            (s.len = 0 → s.bLat = s.aLat ∧ s.bLon = s.aLon)) →
      c ≤ t →
      scanPoint dL (sA ++ z :: sB) c t = scanPoint dR (sA ++ sB) c t := by
  intro sA
  induction sA with
  | nil =>
    intro sB c t hnn hhead hct
    simp only [List.nil_append]
    rw [scanPoint]
    by_cases hlt : c < t
    · have hc' : c + z.len < t := by rw [hz0, add_zero]; exact hlt
      rw [if_pos hc', hz0, add_zero]
      exact scanPoint_congr hdlat hdlon sB c t
    · have hceq : t = c := le_antisymm (not_lt.mp hlt) hct
      have hcond : ¬(c + z.len < t) := by rw [hz0, add_zero]; exact hlt
      rw [if_neg hcond, if_pos hz0]
      cases sB with
      | nil =>
        rw [scanPoint]
        exact Prod.ext hhead.1.symm hhead.2.symm
      | cons s rest =>
        rw [scanPoint]
        have hs0 : 0 ≤ s.len := hnn s (List.mem_cons_self _ _)
        have hns : ¬(c + s.len < t) := by rw [hceq]; linarith
        rw [if_neg hns]
        by_cases hsl : s.len = 0
        · rw [if_pos hsl]
          have hd := hhead.2.2 hsl
          exact Prod.ext (by rw [hd.1, hhead.1]) (by rw [hd.2, hhead.2.1])
        · rw [if_neg hsl]
          have hfrac : (t - c) / s.len = 0 := by rw [hceq, sub_self, zero_div]
          simp only [hfrac, zero_mul, add_zero]
          exact Prod.ext hhead.1.symm hhead.2.1.symm
  | cons s sA' ih =>
    intro sB c t hnn hhead hct
    simp only [List.cons_append]
    rw [scanPoint, scanPoint]
    by_cases h : c + s.len < t
    · rw [if_pos h, if_pos h]
      exact ih sB (c + s.len) t hnn hhead (le_of_lt h)
    · rw [if_neg h, if_neg h]

theorem specSamples_congr (segs₁ segs₂ : List (Seg F)) :
    ∀ (ts : List F) (lc : F) (b : Bool),
      (∀ t ∈ ts, pointAtDist segs₁ t = pointAtDist segs₂ t) →
      specSamples segs₁ ts lc b = specSamples segs₂ ts lc b := by
  intro ts
  induction ts with
  | nil => intro _ _ _; rfl
  | cons t rest ih =>
    intro lc b h
    rw [specSamples, specSamples, h t (List.mem_cons_self _ _),
      ih t false (fun t' ht' => h t' (List.mem_cons_of_mem _ ht'))]

/-- Collapsing one consecutive duplicate does not change any scanned point
(for nonnegative targets), under the validity conditions that hold after a
successful guardrail validation. -/
theorem pointAtDist_collapse (dist : F × F → F × F → F) (u : List (F × F))
    (x : F × F) (v : List (F × F))
    (hxx : dist x x = 0) (hnn : ∀ a b, 0 ≤ dist a b)
    (hz : List.Chain' (fun a b => dist a b = 0 → a = b) (u ++ x :: v))
    (hlen2 : 2 ≤ (u ++ x :: v).length)
    (t : F) (ht : 0 ≤ t) :
    pointAtDist (buildSegs dist (u ++ x :: x :: v)) t =
      pointAtDist (buildSegs dist (u ++ x :: v)) t := by
  have hnnB : ∀ s ∈ buildSegs dist (x :: v), 0 ≤ s.len := by
    intro s hs
    refine buildSegs_forall dist (fun s => 0 ≤ s.len) (x :: v) ?_ s hs
    exact chain'_of_forall (fun a b => hnn a b) _
  rw [pointAtDist, pointAtDist, buildSegs_dup_split dist u x v,
    buildSegs_append dist u x v]
  cases v with
  | nil =>
    have hune : u ≠ [] := by
      intro hu
      rw [hu] at hlen2
      simp at hlen2
    have h2 : 2 ≤ (u ++ [x]).length := by
      rcases List.exists_cons_of_ne_nil hune with ⟨a, u', rfl⟩
      simp
    have hlast := buildSegs_getLast dist (u ++ [x]) h2
    rw [List.getLastD_concat] at hlast
    have hBnil : buildSegs dist [x] = [] := rfl
    rw [hBnil]
    have hz' : (⟨x.1, x.2, x.1, x.2, dist x x⟩ : Seg F).len = 0 := hxx
    have hdL : (buildSegs dist (u ++ [x]) ++
        [(⟨x.1, x.2, x.1, x.2, dist x x⟩ : Seg F)]).getLastD junkSeg =
        (⟨x.1, x.2, x.1, x.2, dist x x⟩ : Seg F) := List.getLastD_concat _ _ _
    refine scan_insert_zero _ _ _ hz' rfl rfl ?_ ?_
      (buildSegs dist (u ++ [x])) [] 0 t (by intro s hs; simp at hs) ?_ ht
    · rw [hdL, List.append_nil, hlast.2]
    · rw [hdL, List.append_nil, hlast.1]
    · rw [List.append_nil]
      exact ⟨hlast.2, hlast.1⟩
  | cons c v' =>
    have hBcons : buildSegs dist (x :: c :: v') =
        ⟨x.1, x.2, c.1, c.2, dist x c⟩ :: buildSegs dist (c :: v') := rfl
    have hsBne : buildSegs dist (x :: c :: v') ≠ [] := by
      rw [hBcons]; exact List.cons_ne_nil _ _
    have hz' : (⟨x.1, x.2, x.1, x.2, dist x x⟩ : Seg F).len = 0 := hxx
    have hdeq : (buildSegs dist (u ++ [x]) ++
          (⟨x.1, x.2, x.1, x.2, dist x x⟩ : Seg F) :: buildSegs dist (x :: c :: v')).getLastD
          junkSeg =
        (buildSegs dist (u ++ [x]) ++ buildSegs dist (x :: c :: v')).getLastD junkSeg := by
      rw [getLastD_append_right _ (List.cons_ne_nil _ _) junkSeg,
        getLastD_append_right _ hsBne junkSeg, List.getLastD_cons,
        getLastD_congr hsBne _ junkSeg]
    have hxc0 : dist x c = 0 → x = c := by
      intro h0
      have hch : List.Chain' (fun a b => dist a b = 0 → a = b) (x :: c :: v') :=
        (List.chain'_append.mp hz).2.1
      exact (List.chain'_cons.mp hch).1 h0
    rw [hBcons]
    refine scan_insert_zero _ _ _ hz' rfl rfl
      (congrArg (fun s => s.bLat) hdeq) (congrArg (fun s => s.bLon) hdeq)
      (buildSegs dist (u ++ [x]))
      (⟨x.1, x.2, c.1, c.2, dist x c⟩ :: buildSegs dist (c :: v'))
      0 t ?_ ?_ ht
    · intro s hs
      exact hnnB s (by rw [hBcons]; exact hs)
    · refine ⟨rfl, rfl, ?_⟩
      intro h0
      rw [hxc0 h0]
      exact ⟨rfl, rfl⟩

/-! ## Properties of the assembled target list -/

theorem targets_props {spacing total : F} (hs : 0 < spacing) (ht : 0 < total)
    {mids : List F} {fuel : ℕ}
    (hm : targetsFuel spacing total fuel spacing = some mids)
    {tgts : List F}
    (htg : tgts = if mids.getLastD 0 ≠ total then (0 :: mids) ++ [total] else 0 :: mids) :
    List.Sorted (· ≤ ·) tgts ∧ (∀ t ∈ tgts, 0 ≤ t) ∧
      tgts.getLast? = some total ∧ tgts.length ≤ mids.length + 2 := by
  obtain ⟨hmap, hlt, hge⟩ := targetsFuel_char fuel spacing mids hm
  have helem : ∀ m ∈ mids, 0 < m ∧ m < total := by
    intro m hmem
    rw [hmap] at hmem
    rcases List.mem_map.mp hmem with ⟨k, hk, rfl⟩
    have hk' : k < mids.length := List.mem_range.mp hk
    have h0 : (0 : F) ≤ (k : F) * spacing :=
      mul_nonneg (Nat.cast_nonneg k) hs.le
    exact ⟨by linarith, hlt k hk'⟩
  have hsorted_mids : List.Sorted (· ≤ ·) mids := by
    rw [hmap]
    refine List.Pairwise.map _ ?_ (List.sorted_lt_range mids.length)
    intro a b hab
    have hc : (a : F) ≤ (b : F) := by exact_mod_cast hab.le
    have := mul_le_mul_of_nonneg_right hc hs.le
    linarith
  by_cases hif : mids.getLastD 0 ≠ total
  · rw [if_pos hif] at htg
    subst htg
    refine ⟨?_, ?_, ?_, ?_⟩
    · rw [List.cons_append]
      rw [List.sorted_cons]
      constructor
      · intro b hb
        rcases List.mem_append.mp hb with hb' | hb'
        · exact (helem b hb').1.le
        · simp at hb'
          rw [hb']
          exact ht.le
      · rw [List.Sorted, List.pairwise_append]
        refine ⟨hsorted_mids, List.sorted_singleton total, ?_⟩
        intro a ha b hb
        simp at hb
        rw [hb]
        exact (helem a ha).2.le
    · intro t htm
      rw [List.cons_append] at htm
      rcases List.mem_cons.mp htm with rfl | htm'
      · exact le_refl 0
      · rcases List.mem_append.mp htm' with h' | h'
        · exact (helem t h').1.le
        · simp at h'
          rw [h']
          exact ht.le
    · exact List.getLast?_concat _
    · simp
  · rw [if_neg hif] at htg
    subst htg
    push_neg at hif
    have hmids_ne : mids ≠ [] := by
      intro hnil
      rw [hnil] at hif
      simp at hif
      exact absurd hif.symm ht.ne'
    refine ⟨?_, ?_, ?_, ?_⟩
    · rw [List.sorted_cons]
      exact ⟨fun b hb => (helem b hb).1.le, hsorted_mids⟩
    · intro t htm
      rcases List.mem_cons.mp htm with rfl | htm'
      · exact le_refl 0
      · exact (helem t htm').1.le
    · rcases List.exists_cons_of_ne_nil hmids_ne with ⟨m, ms, rfl⟩
      rw [List.getLastD_cons] at hif
      cases ms with
      | nil =>
        simp only [List.getLastD_nil] at hif
        rw [← hif]
        rfl
      | cons y ys =>
        rw [List.getLast?_cons_cons, List.getLast?_cons_cons]
        have hne : y :: ys ≠ [] := List.cons_ne_nil _ _
        rw [List.getLastD_eq_getLast?, List.getLast?_eq_getLast _ hne] at hif
        rw [List.getLast?_eq_getLast _ hne]
        simp at hif
        rw [hif]
    · simp

/-- `resample_even_spacing`, with its internal running total rewritten as
`polyline_length_m` and the let-bound target assembly expanded. -/
theorem resample_unfold (dist : F × F → F × F → F) (pts : List (F × F))
    (spacing : F) :
    resample_even_spacing dist pts spacing =
      (if polyline_length_m dist pts = 0 then some (.error .zeroLengthRoute)
      else
        match targetsFuel spacing (polyline_length_m dist pts)
            (loopFuelBound spacing (polyline_length_m dist pts)) spacing with
        | none => none
        | some mids =>
          some (.ok (emitAux (buildSegs dist pts)
            (if mids.getLastD 0 ≠ polyline_length_m dist pts
             then (0 :: mids) ++ [polyline_length_m dist pts]
             else 0 :: mids) 0 0 0 true))) := by
  simp only [resample_even_spacing]
  rw [buildSegs_sum]

/-- The successful branch of the resampler, as one equation. -/
theorem resample_some (dist : F × F → F × F → F) (pts : List (F × F))
    (spacing : F) {mids : List F}
    (h0 : polyline_length_m dist pts ≠ 0)
    (hm : targetsFuel spacing (polyline_length_m dist pts)
      (loopFuelBound spacing (polyline_length_m dist pts)) spacing = some mids) :
    resample_even_spacing dist pts spacing =
      some (.ok (emitAux (buildSegs dist pts)
        (if mids.getLastD 0 ≠ polyline_length_m dist pts
         then (0 :: mids) ++ [polyline_length_m dist pts]
         else 0 :: mids) 0 0 0 true)) := by
  rw [resample_unfold, if_neg h0, hm]

/-- The non-terminating branch of the resampler, as one equation. -/
theorem resample_none (dist : F × F → F × F → F) (pts : List (F × F))
    (spacing : F)
    (h0 : polyline_length_m dist pts ≠ 0)
    (hm : targetsFuel spacing (polyline_length_m dist pts)
      (loopFuelBound spacing (polyline_length_m dist pts)) spacing = none) :
    resample_even_spacing dist pts spacing = none := by
  rw [resample_unfold, if_neg h0, hm]

/-- Collapsing one consecutive duplicate does not change the resampler's
output (for any spacing). -/
theorem resample_collapse (dist : F × F → F × F → F) (u : List (F × F))
    (x : F × F) (v : List (F × F)) (spacing : F)
    (hxx : dist x x = 0) (hnn : ∀ a b, 0 ≤ dist a b)
    (hz : List.Chain' (fun a b => dist a b = 0 → a = b) (u ++ x :: v))
    (hlen2 : 2 ≤ (u ++ x :: v).length) :
    resample_even_spacing dist (u ++ x :: x :: v) spacing =
      resample_even_spacing dist (u ++ x :: v) spacing := by
  have htot : polyline_length_m dist (u ++ x :: x :: v) =
      polyline_length_m dist (u ++ x :: v) := by
    rw [polyline_collapse, hxx, zero_add]
  by_cases h0 : polyline_length_m dist (u ++ x :: v) = 0
  · rw [resample_unfold, resample_unfold, htot, if_pos h0, if_pos h0]
  · have h0L : polyline_length_m dist (u ++ x :: x :: v) ≠ 0 := by
      rw [htot]; exact h0
    have htpos : 0 < polyline_length_m dist (u ++ x :: v) :=
      lt_of_le_of_ne (polyline_nonneg dist hnn _) (Ne.symm h0)
    cases hm : targetsFuel spacing (polyline_length_m dist (u ++ x :: v))
        (loopFuelBound spacing (polyline_length_m dist (u ++ x :: v))) spacing with
    | none =>
      rw [resample_none dist _ spacing h0L (by rw [htot]; exact hm),
        resample_none dist _ spacing h0 hm]
    | some mids =>
      have hsp : 0 < spacing := by
        by_contra hns
        push_neg at hns
        have hlt : spacing < polyline_length_m dist (u ++ x :: v) :=
          lt_of_le_of_lt hns htpos
        rw [targetsFuel_none hns _ _ hlt] at hm
        exact absurd hm (by simp)
      obtain ⟨hsorted, hnonneg, hlast, hlenb⟩ :=
        targets_props hsp htpos hm rfl
      rw [resample_some dist _ spacing h0L (by rw [htot]; exact hm),
        resample_some dist _ spacing h0 hm, htot]
      have hemitL := emitAux_eq_spec (buildSegs dist (u ++ x :: x :: v))
        (if mids.getLastD 0 ≠ polyline_length_m dist (u ++ x :: v)
         then (0 :: mids) ++ [polyline_length_m dist (u ++ x :: v)]
         else 0 :: mids) 0 0 0 true
        (Nat.zero_le _) (cumTake_zero _).symm
        (fun t _ j hj => absurd hj (Nat.not_lt_zero j)) hsorted
      have hemitR := emitAux_eq_spec (buildSegs dist (u ++ x :: v))
        (if mids.getLastD 0 ≠ polyline_length_m dist (u ++ x :: v)
         then (0 :: mids) ++ [polyline_length_m dist (u ++ x :: v)]
         else 0 :: mids) 0 0 0 true
        (Nat.zero_le _) (cumTake_zero _).symm
        (fun t _ j hj => absurd hj (Nat.not_lt_zero j)) hsorted
      rw [hemitL, hemitR]
      rw [specSamples_congr _ _ _ 0 true
        (fun t htm => pointAtDist_collapse dist u x v hxx hnn hz hlen2 t
          (hnonneg t htm))]

/-- The resampler (and the total length) treat a raw polyline exactly as
its consecutive-de-duplicated form, provided every zero-distance adjacent
pair is an exact duplicate (which guardrail validation enforces). -/
theorem resample_dedup_aux (dist : F × F → F × F → F)
    (hnn : ∀ a b, 0 ≤ dist a b) :
    ∀ (n : ℕ) (pts : List (F × F)), pts.length ≤ n →
      List.Chain' (fun a b => dist a b = 0 → a = b) pts →
      (∀ x : F × F, dist x x = 0) →
      2 ≤ (dedupConsecutive pts).length →
      (∀ spacing : F, resample_even_spacing dist pts spacing =
        resample_even_spacing dist (dedupConsecutive pts) spacing) ∧
      polyline_length_m dist pts = polyline_length_m dist (dedupConsecutive pts) := by
  intro n
  induction n with
  | zero =>
    intro pts hlen hchain hself hlen2
    have : pts = [] := List.length_eq_zero.mp (Nat.le_zero.mp hlen)
    subst this
    simp [dedupConsecutive] at hlen2
  | succ n ih =>
    intro pts hlen hchain hself hlen2
    rcases dedup_split pts with hcn | ⟨u, x, v, rfl⟩
    · rw [dedup_eq_self pts hcn]
      exact ⟨fun _ => rfl, rfl⟩
    · have hxx : dist x x = 0 := hself x
      have hzc : List.Chain' (fun a b => dist a b = 0 → a = b) (u ++ x :: v) :=
        chain_collapse _ u x v hchain
      have hdc := dedup_collapse u x (v := v) (F := F)
      have hl2' : 2 ≤ (dedupConsecutive (u ++ x :: v)).length := by
        rw [← hdc]; exact hlen2
      have hlen2' : 2 ≤ (u ++ x :: v).length :=
        le_trans hl2' (dedup_length_le _)
      have hlen' : (u ++ x :: v).length ≤ n := by
        have h1 : (u ++ x :: x :: v).length = (u ++ x :: v).length + 1 := by
          simp only [List.length_append, List.length_cons]
          omega
        omega
      obtain ⟨ihres, ihlen⟩ := ih (u ++ x :: v) hlen' hzc hself hl2'
      constructor
      · intro spacing
        rw [resample_collapse dist u x v spacing hxx hnn hzc hlen2', hdc]
        exact ihres spacing
      · rw [polyline_collapse, hxx, zero_add, hdc]
        exact ihlen

/-! ## Orchestrator-level lemmas -/

theorem normalize_unfold (dist : F × F → F × F → F) (bear : F → F → F → F → F)
    (pts : List (F × F)) (spacing? : Option F)
    (hok : validate_route_guardrails dist pts = .ok ()) :
    normalize_raw_route dist bear pts spacing? =
      (match resample_even_spacing dist pts
          (pick_spacing_m (polyline_length_m dist pts) spacing?) with
      | none => none
      | some (.error e) => some (.error e)
      | some (.ok samples) =>
        some (.ok
          ⟨pick_spacing_m (polyline_length_m dist pts) spacing?,
           ((mkPoints 0 samples (mkBearings bear samples)).getLastD junkPoint).cum_dist_m,
           (mkPoints 0 samples (mkBearings bear samples)).length,
           bbox_wgs84 ((mkPoints 0 samples (mkBearings bear samples)).map
             (fun p => (p.lon, p.lat))),
           mkPoints 0 samples (mkBearings bear samples)⟩)) := by
  unfold normalize_raw_route
  rw [hok]

theorem normalize_of_validate_error (dist : F × F → F × F → F)
    (bear : F → F → F → F → F) (pts : List (F × F)) (spacing? : Option F)
    (e : RouteErr) (herr : validate_route_guardrails dist pts = .error e) :
    normalize_raw_route dist bear pts spacing? = some (.error e) := by
  unfold normalize_raw_route
  rw [herr]

/-- All the consequences of a successful guardrail validation that the
downstream pipeline relies on. -/
theorem validate_consequences (dist : F × F → F × F → F)
    (hnn : ∀ a b, 0 ≤ dist a b) (hself : ∀ a, dist a a = 0)
    (pts : List (F × F))
    (hok : validate_route_guardrails dist pts = .ok ()) :
    (∀ spacing : F, resample_even_spacing dist pts spacing =
        resample_even_spacing dist (dedupConsecutive pts) spacing) ∧
      polyline_length_m dist pts = polyline_length_m dist (dedupConsecutive pts) ∧
      MIN_ROUTE_M ≤ polyline_length_m dist pts ∧
      polyline_length_m dist pts ≤ MAX_ROUTE_M ∧
      2 ≤ (dedupConsecutive pts).length ∧
      List.Chain' (fun a b => 0 < dist a b ∧ dist a b ≤ MAX_SEGMENT_M)
        (dedupConsecutive pts) := by
  obtain ⟨hlen2, hsegs, hmin, hmax⟩ := (validate_ok_iff dist pts).mp hok
  have hchain := (checkSegs_ok_iff dist (dedupConsecutive pts)).mp hsegs
  have hzchain : List.Chain' (fun a b => dist a b = 0 → a = b) pts := by
    have h1 := chain_of_dedup _ pts hchain
    refine List.Chain'.imp ?_ h1
    intro a b hab hd0
    by_contra hne
    exact (ne_of_gt (hab hne).1) hd0
  obtain ⟨hres, hpoly⟩ :=
    resample_dedup_aux dist hnn pts.length pts (le_refl _) hzchain hself hlen2
  exact ⟨hres, hpoly, by rw [hpoly]; exact hmin, by rw [hpoly]; exact hmax,
    hlen2, hchain⟩

theorem MIN_ROUTE_pos : (0 : F) < MIN_ROUTE_M := by norm_num [MIN_ROUTE_M]

/-- Inversion of a successful run of the real pipeline: the output record's
fields, and the order facts about the cumulative distances. -/
theorem normalizeRoute_ok_main (pts : List (ℝ × ℝ)) (s : Option ℝ)
    (r : NormalizedRoute ℝ) (h : normalizeRoute pts s = some (.ok r)) :
    ∃ samples : List (RSample ℝ),
      r.points = mkPoints 0 samples (mkBearings realBear samples) ∧
      r.total_distance_m = (r.points.getLastD junkPoint).cum_dist_m ∧
      r.point_count = r.points.length ∧
      samples ≠ [] ∧
      (mkBearings realBear samples).length = samples.length ∧
      (samples.map (fun x => x.cum)).head? = some 0 ∧
      List.Sorted (· ≤ ·) (samples.map fun x => x.cum) ∧
      (samples.map fun x => x.cum).getLast? = some (polyline_length_m realDist pts) ∧
      validate_route_guardrails realDist pts = .ok () := by
  cases hval : validate_route_guardrails realDist pts with
  | error e =>
    rw [normalizeRoute, normalize_of_validate_error realDist realBear pts s e hval] at h
    simp at h
  | ok u =>
    cases u
    obtain ⟨-, hpoly, hmin, -, -, -⟩ :=
      validate_consequences realDist realDist_nonneg realDist_self pts hval
    have htpos : 0 < polyline_length_m realDist pts :=
      lt_of_lt_of_le MIN_ROUTE_pos hmin
    rw [normalizeRoute, normalize_unfold realDist realBear pts s hval] at h
    cases hres : resample_even_spacing realDist pts
        (pick_spacing_m (polyline_length_m realDist pts) s) with
    | none => rw [hres] at h; simp at h
    | some res =>
      cases res with
      | error e => rw [hres] at h; simp at h
      | ok samples =>
        rw [hres] at h
        simp only [Option.some_inj] at h
        have hr : r = ⟨pick_spacing_m (polyline_length_m realDist pts) s,
            ((mkPoints 0 samples (mkBearings realBear samples)).getLastD
              junkPoint).cum_dist_m,
            (mkPoints 0 samples (mkBearings realBear samples)).length,
            bbox_wgs84 ((mkPoints 0 samples (mkBearings realBear samples)).map
              (fun p => (p.lon, p.lat))),
            mkPoints 0 samples (mkBearings realBear samples)⟩ := by
          injection h with h'
          exact h'.symm
        -- characterize the samples from the resampler equations
        have hsp : 0 < pick_spacing_m (polyline_length_m realDist pts) s := by
          by_contra hns
          push_neg at hns
          have hlt : pick_spacing_m (polyline_length_m realDist pts) s <
              polyline_length_m realDist pts := lt_of_le_of_lt hns htpos
          rw [resample_none realDist pts _ htpos.ne'
            (targetsFuel_none hns _ _ hlt)] at hres
          simp at hres
        cases hm : targetsFuel (pick_spacing_m (polyline_length_m realDist pts) s)
            (polyline_length_m realDist pts)
            (loopFuelBound (pick_spacing_m (polyline_length_m realDist pts) s)
              (polyline_length_m realDist pts))
            (pick_spacing_m (polyline_length_m realDist pts) s) with
        | none =>
          rw [resample_none realDist pts _ htpos.ne' hm] at hres
          simp at hres
        | some mids =>
          rw [resample_some realDist pts _ htpos.ne' hm] at hres
          simp only [Option.some_inj] at hres
          have hsamples : samples = emitAux (buildSegs realDist pts)
              (if mids.getLastD 0 ≠ polyline_length_m realDist pts
               then (0 :: mids) ++ [polyline_length_m realDist pts]
               else 0 :: mids) 0 0 0 true := by
            injection hres with h'
            exact h'.symm
          obtain ⟨hsorted, hnonneg, hlast, hlenb⟩ := targets_props hsp htpos hm rfl
          have hcum : samples.map (fun x => x.cum) =
              (if mids.getLastD 0 ≠ polyline_length_m realDist pts
               then (0 :: mids) ++ [polyline_length_m realDist pts]
               else 0 :: mids) := by
            rw [hsamples]
            exact emitAux_map_cum _ _ _ _ _ _
          have htghead : ∃ rest, (if mids.getLastD 0 ≠ polyline_length_m realDist pts
               then (0 :: mids) ++ [polyline_length_m realDist pts]
               else 0 :: mids) = 0 :: rest := by
            by_cases hif : mids.getLastD 0 ≠ polyline_length_m realDist pts
            · rw [if_pos hif, List.cons_append]
              exact ⟨_, rfl⟩
            · rw [if_neg hif]
              exact ⟨_, rfl⟩
          refine ⟨samples, by rw [hr], by rw [hr], by rw [hr], ?_, ?_, ?_, ?_, ?_, rfl⟩
          · intro hnil
            rcases htghead with ⟨rest, hrest⟩
            have := hcum
            rw [hnil, hrest] at this
            simp at this
          · refine mkBearings_length realBear samples ?_
            intro hnil
            rcases htghead with ⟨rest, hrest⟩
            have := hcum
            rw [hnil, hrest] at this
            simp at this
          · rcases htghead with ⟨rest, hrest⟩
            rw [hcum, hrest]
            rfl
          · rw [hcum]
            exact hsorted
          · rw [hcum]
            exact hlast

/-! ## A concrete route, fully evaluated through the real pipeline

`exPts` is a two-point due-east route of about 111 m; its single segment
length is `exD = 6371·π/180` metres exactly. -/

noncomputable def exD : ℝ := 6371 * Real.pi / 180

noncomputable def exPts : List (ℝ × ℝ) := [(0, 0), (1 / 1000, 0)]

noncomputable def exDupPts : List (ℝ × ℝ) := [(0, 0), (0, 0), (1 / 1000, 0)]

theorem exD_pos : 0 < exD := by
  unfold exD
  positivity

theorem exD_lt_250 : exD < 250 := by
  unfold exD
  nlinarith [Real.pi_lt_d2]

theorem exD_ge_25 : 25 ≤ exD := by
  unfold exD
  nlinarith [Real.pi_gt_three]

theorem exD_le_50000 : exD ≤ 50000 := by
  unfold exD
  nlinarith [Real.pi_lt_d2]

theorem exD_le_500000 : exD ≤ 500000 := by
  unfold exD
  nlinarith [Real.pi_lt_d2]

theorem polyline_single (dist : F × F → F × F → F) (p : F × F) :
    polyline_length_m dist [p] = 0 := rfl

theorem polyline_cons (dist : F × F → F × F → F) (a b : F × F)
    (rest : List (F × F)) :
    polyline_length_m dist (a :: b :: rest) =
      dist a b + polyline_length_m dist (b :: rest) := rfl

theorem haversine_ex : haversine_m 0 0 (1 / 1000 : ℝ) 0 = exD := by
  simp only [haversine_m, radians, exD]
  have e1 : ((0 : ℝ) - 0) * Real.pi / 180 / 2 = 0 := by ring
  have e2 : ((1 / 1000 : ℝ) - 0) * Real.pi / 180 / 2 = Real.pi / 360000 := by ring
  have e3 : (0 : ℝ) * Real.pi / 180 = 0 := by ring
  rw [e1, e2, e3, Real.sin_zero, Real.cos_zero]
  have hθpos : (0 : ℝ) < Real.pi / 360000 := by positivity
  have hθle : Real.pi / 360000 ≤ Real.pi / 2 := by
    rw [div_le_div_iff₀ (by norm_num) (by norm_num)]
    nlinarith [Real.pi_pos]
  have hθlepi : Real.pi / 360000 ≤ Real.pi := by
    nlinarith [Real.pi_pos]
  have hsin_nonneg : 0 ≤ Real.sin (Real.pi / 360000) :=
    Real.sin_nonneg_of_nonneg_of_le_pi hθpos.le hθlepi
  rw [show (0 : ℝ) ^ 2 + 1 * 1 * Real.sin (Real.pi / 360000) ^ 2 =
    Real.sin (Real.pi / 360000) ^ 2 by ring]
  rw [Real.sqrt_sq hsin_nonneg]
  rw [Real.arcsin_sin (by nlinarith [Real.pi_pos]) hθle]
  ring

theorem realDist_ex : realDist (0, 0) (1 / 1000, 0) = exD := by
  rw [realDist]
  exact haversine_ex

theorem polyline_ex : polyline_length_m realDist exPts = exD := by
  unfold exPts
  rw [polyline_cons, polyline_single, realDist_ex]
  ring

theorem dedup_ex : dedupConsecutive exPts = exPts := by
  unfold exPts
  rw [dedupConsecutive, dedupGo_cons, if_neg ?_]
  · rfl
  · intro h
    rw [Prod.mk.injEq] at h
    norm_num at h

theorem checkSegs_ex : checkSegs realDist exPts = .ok () := by
  unfold exPts
  rw [checkSegs, realDist_ex]
  rw [if_neg (not_le.mpr exD_pos), if_neg ?_]
  · rfl
  · rw [not_lt]
    calc exD ≤ 50000 := exD_le_50000
      _ ≤ MAX_SEGMENT_M := by norm_num [MAX_SEGMENT_M]

theorem validate_ex : validate_route_guardrails realDist exPts = .ok () := by
  refine (validate_ok_iff realDist exPts).mpr ?_
  rw [dedup_ex]
  refine ⟨by unfold exPts; simp, checkSegs_ex, ?_, ?_⟩
  · rw [polyline_ex]
    calc MIN_ROUTE_M = 25 := by norm_num [MIN_ROUTE_M]
      _ ≤ exD := exD_ge_25
  · rw [polyline_ex]
    calc exD ≤ 500000 := exD_le_500000
      _ ≤ MAX_ROUTE_M := by norm_num [MAX_ROUTE_M]

theorem dedup_exDup : dedupConsecutive exDupPts = exPts := by
  unfold exDupPts exPts
  rw [dedupConsecutive, dedupGo_cons, if_pos rfl, dedupGo_cons, if_neg ?_]
  · rfl
  · intro h
    rw [Prod.mk.injEq] at h
    norm_num at h

theorem validate_exDup : validate_route_guardrails realDist exDupPts = .ok () := by
  refine (validate_ok_iff realDist exDupPts).mpr ?_
  rw [dedup_exDup, dedup_ex.symm, dedup_ex]
  refine ⟨by unfold exPts; simp, checkSegs_ex, ?_, ?_⟩
  · rw [polyline_ex]
    calc MIN_ROUTE_M = 25 := by norm_num [MIN_ROUTE_M]
      _ ≤ exD := exD_ge_25
  · rw [polyline_ex]
    calc exD ≤ 500000 := exD_le_500000
      _ ≤ MAX_ROUTE_M := by norm_num [MAX_ROUTE_M]

theorem bearing_ex : bearing_deg_true 0 0 (1 / 1000 : ℝ) 0 = 90 := by
  simp only [bearing_deg_true, radians, degreesOf, atan2, pymod]
  have e3 : (0 : ℝ) * Real.pi / 180 = 0 := by ring
  have e2 : ((1 / 1000 : ℝ) - 0) * Real.pi / 180 = Real.pi / 180000 := by ring
  rw [e3, e2, Real.sin_zero, Real.cos_zero]
  have harg : Complex.arg ⟨1 * 0 - 0 * 1 * Real.cos (Real.pi / 180000),
      Real.sin (Real.pi / 180000) * 1⟩ = Real.pi / 2 := by
    rw [Complex.arg_eq_pi_div_two_iff]
    constructor
    · show (1 : ℝ) * 0 - 0 * 1 * Real.cos (Real.pi / 180000) = 0
      ring
    · show 0 < Real.sin (Real.pi / 180000) * 1
      rw [mul_one]
      apply Real.sin_pos_of_pos_of_lt_pi
      · positivity
      · nlinarith [Real.pi_pos]
  rw [harg]
  have hdeg : Real.pi / 2 * 180 / Real.pi = 90 := by
    field_simp
    ring
  rw [hdeg]
  have hfloor : ⌊((90 : ℝ) + 360) / 360⌋ = 1 := by
    apply Int.floor_eq_iff.mpr
    constructor <;> norm_num
  rw [hfloor]
  norm_num

theorem realBear_ex : realBear 0 0 (1 / 1000 : ℝ) 0 = 90 := bearing_ex

/-- The complete output of the real pipeline on `exPts`. -/
noncomputable def exR : NormalizedRoute ℝ :=
  ⟨250, exD, 2, ⟨0, 0, 0, 1 / 1000⟩,
   [⟨0, 0, 0, 0, 0, 90⟩, ⟨1, 0, 1 / 1000, exD, exD, 90⟩]⟩

theorem segs_ex : buildSegs realDist exPts = [⟨0, 0, 1 / 1000, 0, exD⟩] := by
  unfold exPts
  rw [buildSegs_cons, realDist_ex]
  rfl

theorem pick_ex : pick_spacing_m (polyline_length_m realDist exPts) none = 250 := by
  rw [polyline_ex]
  unfold pick_spacing_m
  have hsb : spacingBase (none : Option ℝ) = 250 := rfl
  rw [hsb, if_neg (not_le.mpr exD_pos)]
  rw [if_pos ?_]
  have hfl : ⌊exD / (250 : ℝ)⌋ = 0 := by
    apply Int.floor_eq_zero_iff.mpr
    constructor
    · apply div_nonneg exD_pos.le
      norm_num
    · rw [div_lt_one (by norm_num)]
      exact exD_lt_250
  rw [hfl]
  norm_num [MAX_POINTS]

theorem emit_ex :
    emitAux [(⟨0, 0, 1 / 1000, 0, exD⟩ : Seg ℝ)] [0, exD] 0 0 0 true =
      [⟨0, 0, 0, 0⟩, ⟨0, 1 / 1000, exD, exD⟩] := by
  have hlen1 : (0 : ℕ) < [(⟨0, 0, 1 / 1000, 0, exD⟩ : Seg ℝ)].length := by simp
  have hget : [(⟨0, 0, 1 / 1000, 0, exD⟩ : Seg ℝ)].get ⟨0, hlen1⟩ =
      ⟨0, 0, 1 / 1000, 0, exD⟩ := rfl
  have hadv0 : advanceCursor [(⟨0, 0, 1 / 1000, 0, exD⟩ : Seg ℝ)] 0 0 0 = (0, 0) := by
    rw [advanceCursor_unfold, dif_pos hlen1, if_neg ?_]
    rw [hget]
    show ¬((0 : ℝ) + exD < 0)
    rw [not_lt, zero_add]
    exact exD_pos.le
  have hadvD : advanceCursor [(⟨0, 0, 1 / 1000, 0, exD⟩ : Seg ℝ)] exD 0 0 = (0, 0) := by
    rw [advanceCursor_unfold, dif_pos hlen1, if_neg ?_]
    rw [hget]
    show ¬((0 : ℝ) + exD < exD)
    rw [not_lt, zero_add]
  have hsamp0 : samplePoint [(⟨0, 0, 1 / 1000, 0, exD⟩ : Seg ℝ)] 0 0 0 = (0, 0) := by
    rw [samplePoint, dif_pos hlen1]
    rw [hget]
    show (if exD = 0 then ((0 : ℝ), (1 / 1000 : ℝ)) else _) = _
    rw [if_neg exD_pos.ne']
    show ((0 : ℝ) + (0 - 0) / exD * (0 - 0), (0 : ℝ) + (0 - 0) / exD * (1 / 1000 - 0)) = _
    norm_num
  have hsampD : samplePoint [(⟨0, 0, 1 / 1000, 0, exD⟩ : Seg ℝ)] 0 0 exD =
      (0, 1 / 1000) := by
    rw [samplePoint, dif_pos hlen1]
    rw [hget]
    show (if exD = 0 then ((0 : ℝ), (1 / 1000 : ℝ)) else _) = _
    rw [if_neg exD_pos.ne']
    show ((0 : ℝ) + (exD - 0) / exD * (0 - 0), (0 : ℝ) + (exD - 0) / exD * (1 / 1000 - 0)) = _
    rw [sub_zero, div_self exD_pos.ne']
    norm_num
  rw [emitAux]
  simp only [hadv0, hsamp0]
  rw [emitAux]
  simp only [hadvD, hsampD]
  rw [emitAux]
  norm_num

theorem points_ex :
    mkPoints 0 [(⟨0, 0, 0, 0⟩ : RSample ℝ), ⟨0, 1 / 1000, exD, exD⟩] [90, 90] =
      [⟨0, 0, 0, 0, 0, 90⟩, ⟨1, 0, 1 / 1000, exD, exD, 90⟩] := by
  rw [mkPoints, mkPoints, mkPoints]

theorem bearings_ex :
    mkBearings realBear [(⟨0, 0, 0, 0⟩ : RSample ℝ), ⟨0, 1 / 1000, exD, exD⟩] =
      [90, 90] := by
  have hseq : bearingSeq realBear
      [(⟨0, 0, 0, 0⟩ : RSample ℝ), ⟨0, 1 / 1000, exD, exD⟩] = [90] := by
    rw [bearingSeq]
    have : bearingSeq realBear [(⟨0, 1 / 1000, exD, exD⟩ : RSample ℝ)] = [] := rfl
    rw [this]
    have hb : realBear (RSample.lon ⟨0, 0, 0, 0⟩) (RSample.lat ⟨0, 0, 0, 0⟩)
        (RSample.lon ⟨0, 1 / 1000, exD, exD⟩) (RSample.lat ⟨0, 1 / 1000, exD, exD⟩) =
        (90 : ℝ) := realBear_ex
    rw [hb]
  rw [mkBearings, hseq]
  rfl

theorem resample_ex : resample_even_spacing realDist exPts 250 = some (.ok
    [⟨0, 0, 0, 0⟩, ⟨0, 1 / 1000, exD, exD⟩]) := by
  have hm : targetsFuel 250 (polyline_length_m realDist exPts)
      (loopFuelBound 250 (polyline_length_m realDist exPts)) 250 = some [] := by
    apply targetsFuel_stop
    rw [polyline_ex, not_lt]
    exact exD_lt_250.le
  have h0 : polyline_length_m realDist exPts ≠ 0 := by
    rw [polyline_ex]
    exact exD_pos.ne'
  rw [resample_some realDist exPts 250 h0 hm]
  rw [if_pos ?_]
  · rw [segs_ex]
    have htg : ((0 : ℝ) :: []) ++ [polyline_length_m realDist exPts] = [0, exD] := by
      rw [polyline_ex]
      rfl
    rw [htg, emit_ex]
  · rw [polyline_ex]
    show List.getLastD [] (0 : ℝ) ≠ exD
    rw [List.getLastD_nil]
    exact exD_pos.ne

/-- The successful branch of the orchestrator, as one equation. -/
theorem normalize_some (dist : F × F → F × F → F) (bear : F → F → F → F → F)
    (pts : List (F × F)) (spacing? : Option F) {samples : List (RSample F)}
    (hok : validate_route_guardrails dist pts = .ok ())
    (hres : resample_even_spacing dist pts
      (pick_spacing_m (polyline_length_m dist pts) spacing?) = some (.ok samples)) :
    normalize_raw_route dist bear pts spacing? =
      some (.ok
        ⟨pick_spacing_m (polyline_length_m dist pts) spacing?,
         ((mkPoints 0 samples (mkBearings bear samples)).getLastD junkPoint).cum_dist_m,
         (mkPoints 0 samples (mkBearings bear samples)).length,
         bbox_wgs84 ((mkPoints 0 samples (mkBearings bear samples)).map
           (fun p => (p.lon, p.lat))),
         mkPoints 0 samples (mkBearings bear samples)⟩) := by
  rw [normalize_unfold dist bear pts spacing? hok, hres]

theorem exRun : normalizeRoute exPts none = some (.ok exR) := by
  have hres' : resample_even_spacing realDist exPts
      (pick_spacing_m (polyline_length_m realDist exPts) none) =
      some (.ok [⟨0, 0, 0, 0⟩, ⟨0, 1 / 1000, exD, exD⟩]) := by
    rw [pick_ex]
    exact resample_ex
  rw [normalizeRoute, normalize_some realDist realBear exPts none validate_ex hres',
    pick_ex, bearings_ex, points_ex]
  have hbbox : bbox_wgs84
      (([(⟨0, 0, 0, 0, 0, 90⟩ : NormalizedPoint ℝ), ⟨1, 0, 1 / 1000, exD, exD, 90⟩]).map
        (fun p => (p.lon, p.lat))) = ⟨0, 0, 0, 1 / 1000⟩ := by
    simp only [List.map_cons, List.map_nil]
    rw [bbox_wgs84]
    simp only [List.map_cons, List.map_nil, listMin, listMax, List.foldl]
    norm_num
  rw [hbbox]
  unfold exR
  rfl

/-! ## Support lemmas for the claims -/

theorem lens_sum_pos (l : List (Seg F)) (hne : l ≠ [])
    (hpos : ∀ s ∈ l, 0 < s.len) : 0 < (l.map (fun s => s.len)).sum := by
  cases l with
  | nil => exact absurd rfl hne
  | cons s rest =>
    simp only [List.map_cons, List.sum_cons]
    have h1 : 0 < s.len := hpos s (List.mem_cons_self _ _)
    have h2 : 0 ≤ (rest.map (fun s => s.len)).sum := by
      apply List.sum_nonneg
      intro x hx
      rcases List.mem_map.mp hx with ⟨s', hs', rfl⟩
      exact (hpos s' (List.mem_cons_of_mem _ hs')).le
    linarith

theorem scanPoint_total (dflt : Seg F) :
    ∀ (segs : List (Seg F)) (c : F), segs ≠ [] → (∀ s ∈ segs, 0 < s.len) →
      scanPoint dflt segs c (c + (segs.map (fun s => s.len)).sum) =
        ((segs.getLastD junkSeg).bLat, (segs.getLastD junkSeg).bLon) := by
  intro segs
  induction segs with
  | nil => intro c hne _; exact absurd rfl hne
  | cons s rest ih =>
    intro c hne hpos
    cases rest with
    | nil =>
      rw [scanPoint]
      have hs : 0 < s.len := hpos s (List.mem_cons_self _ _)
      have ht : c + ([s].map (fun s => s.len)).sum = c + s.len := by simp
      rw [ht, if_neg (by linarith), if_neg (ne_of_gt hs)]
      have hfrac : (c + s.len - c) / s.len = 1 := by
        rw [add_sub_cancel_left, div_self (ne_of_gt hs)]
      rw [hfrac]
      have h1 : s.aLat + 1 * (s.bLat - s.aLat) = s.bLat := by ring
      have h2 : s.aLon + 1 * (s.bLon - s.aLon) = s.bLon := by ring
      show (s.aLat + 1 * (s.bLat - s.aLat), s.aLon + 1 * (s.bLon - s.aLon)) =
        (([s].getLastD junkSeg).bLat, ([s].getLastD junkSeg).bLon)
      rw [h1, h2]
      rfl
    | cons s' rest' =>
      rw [scanPoint]
      have hs : 0 < s.len := hpos s (List.mem_cons_self _ _)
      have hS' : 0 < ((s' :: rest').map (fun s => s.len)).sum := by
        apply lens_sum_pos _ (List.cons_ne_nil _ _)
        intro x hx
        exact hpos x (List.mem_cons_of_mem _ hx)
      have ht : c + ((s :: s' :: rest').map (fun s => s.len)).sum =
          (c + s.len) + ((s' :: rest').map (fun s => s.len)).sum := by
        simp only [List.map_cons, List.sum_cons]
        ring
      rw [ht, if_pos (by linarith)]
      have hlast : ((s :: s' :: rest').getLastD junkSeg) =
          ((s' :: rest').getLastD junkSeg) := by
        rw [List.getLastD_cons, getLastD_congr (List.cons_ne_nil _ _) s junkSeg]
      rw [hlast]
      exact ih (c + s.len) (List.cons_ne_nil _ _)
        (fun x hx => hpos x (List.mem_cons_of_mem _ hx))

theorem pointAtDist_total (segs : List (Seg F)) (hne : segs ≠ [])
    (hpos : ∀ s ∈ segs, 0 < s.len) :
    pointAtDist segs ((segs.map (fun s => s.len)).sum) =
      ((segs.getLastD junkSeg).bLat, (segs.getLastD junkSeg).bLon) := by
  rw [pointAtDist]
  have := scanPoint_total (segs.getLastD junkSeg) segs 0 hne hpos
  rw [zero_add] at this
  exact this

/-- With a de-duplicated, segment-valid input, the guardrail validator is
exactly the two total-length checks. -/
theorem validate_eq_totalChecks (dist : F × F → F × F → F) (pts : List (F × F))
    (hded : dedupConsecutive pts = pts)
    (hlen : 2 ≤ pts.length)
    (hcs : checkSegs dist pts = .ok ()) :
    validate_route_guardrails dist pts =
      (if polyline_length_m dist pts < MIN_ROUTE_M then .error .tooShort
       else if polyline_length_m dist pts > MAX_ROUTE_M then .error .tooLong
       else .ok ()) := by
  unfold validate_route_guardrails
  rw [hded, if_neg (by omega), hcs]

theorem validate_dedup_ok (dist : F × F → F × F → F) (pts : List (F × F))
    (hok : validate_route_guardrails dist pts = .ok ()) :
    validate_route_guardrails dist (dedupConsecutive pts) = .ok () := by
  obtain ⟨hlen2, hsegs, hmin, hmax⟩ := (validate_ok_iff dist pts).mp hok
  refine (validate_ok_iff dist (dedupConsecutive pts)).mpr ?_
  rw [dedup_idem]
  exact ⟨hlen2, hsegs, hmin, hmax⟩

theorem validate_ok_ne_nil (dist : F × F → F × F → F) (pts : List (F × F))
    (hok : validate_route_guardrails dist pts = .ok ()) : pts ≠ [] := by
  intro hnil
  subst hnil
  obtain ⟨hlen2, -, -, -⟩ := (validate_ok_iff dist []).mp hok
  simp [dedupConsecutive] at hlen2

theorem targets_head (mids : List F) (total : F) :
    ∃ rest, (if mids.getLastD 0 ≠ total then (0 :: mids) ++ [total] else 0 :: mids) =
      0 :: rest := by
  by_cases hif : mids.getLastD 0 ≠ total
  · rw [if_pos hif, List.cons_append]
    exact ⟨_, rfl⟩
  · rw [if_neg hif]
    exact ⟨_, rfl⟩

/-! ## The claims -/

/-- C10: For every input polyline whose total computed length is positive
and every spacing strictly greater than 0, `resample_even_spacing`
terminates: the target-generation loop, which advances its running target
by the spacing while it is below the total, reaches its exit condition
within `loopFuelBound` iterations (returns `some`), and the resampler
returns a result rather than diverging. -/
theorem C10_resample_terminates (pts : List (ℝ × ℝ)) (spacing : ℝ)
    (htot : 0 < polyline_length_m realDist pts) (hsp : 0 < spacing) :
    (∃ mids, targetsFuel spacing (polyline_length_m realDist pts)
      (loopFuelBound spacing (polyline_length_m realDist pts)) spacing = some mids) ∧
    ∃ res, resample_even_spacing realDist pts spacing = some res := by
  obtain ⟨mids, hm⟩ := @targetsFuel_loopFuel_isSome ℝ _ _ _ spacing
    (polyline_length_m realDist pts) hsp
  exact ⟨⟨mids, hm⟩, ⟨_, resample_some realDist pts spacing htot.ne' hm⟩⟩

theorem C10_witness :
    (∃ mids, targetsFuel 250 (polyline_length_m realDist exPts)
      (loopFuelBound 250 (polyline_length_m realDist exPts)) 250 = some mids) ∧
    ∃ res, resample_even_spacing realDist exPts 250 = some res :=
  C10_resample_terminates exPts 250 (by rw [polyline_ex]; exact exD_pos) (by norm_num)

/-- C6: For every input on which guardrail validation succeeds, the
`ZeroLengthRoute` branch of the resampler is unreachable:
`normalize_raw_route` never produces that error. -/
theorem C6_no_zero_length_route (pts : List (ℝ × ℝ)) (s? : Option ℝ)
    (hok : validate_route_guardrails realDist pts = .ok ()) :
    normalizeRoute pts s? ≠ some (.error RouteErr.zeroLengthRoute) := by
  obtain ⟨-, -, hmin, -, -, -⟩ :=
    validate_consequences realDist realDist_nonneg realDist_self pts hok
  have htpos : 0 < polyline_length_m realDist pts :=
    lt_of_lt_of_le MIN_ROUTE_pos hmin
  rw [normalizeRoute, normalize_unfold realDist realBear pts s? hok]
  cases hm : targetsFuel (pick_spacing_m (polyline_length_m realDist pts) s?)
      (polyline_length_m realDist pts)
      (loopFuelBound (pick_spacing_m (polyline_length_m realDist pts) s?)
        (polyline_length_m realDist pts))
      (pick_spacing_m (polyline_length_m realDist pts) s?) with
  | none =>
    rw [resample_none realDist pts _ htpos.ne' hm]
    simp
  | some mids =>
    rw [resample_some realDist pts _ htpos.ne' hm]
    simp

theorem C6_witness :
    normalizeRoute exPts none ≠ some (.error RouteErr.zeroLengthRoute) :=
  C6_no_zero_length_route exPts none validate_ex

/-- C4: For every `NormalizedRoute` produced by the pipeline, the
cumulative distance is `0` at index 0, non-decreasing across the points
sequence, and the final point's cumulative distance equals
`total_distance_m`. -/
theorem C4_cum_dist_monotone (pts : List (ℝ × ℝ)) (s? : Option ℝ)
    (r : NormalizedRoute ℝ) (h : normalizeRoute pts s? = some (.ok r)) :
    r.points ≠ [] ∧ (r.points.headD junkPoint).cum_dist_m = 0 ∧
      List.Chain' (· ≤ ·) (r.points.map (fun p => p.cum_dist_m)) ∧
      (r.points.getLastD junkPoint).cum_dist_m = r.total_distance_m := by
  obtain ⟨samples, hpts, htot, hcount, hne, hblen, hhead, hsorted, hlast, -⟩ :=
    normalizeRoute_ok_main pts s? r h
  have hmc : r.points.map (fun p => p.cum_dist_m) = samples.map (fun x => x.cum) := by
    rw [hpts]
    exact mkPoints_map_cum 0 samples _ hblen
  refine ⟨?_, ?_, ?_, htot.symm⟩
  · intro hnil
    have hl : r.points.length = samples.length := by
      rw [hpts]
      exact mkPoints_length 0 samples _ hblen
    rw [hnil] at hl
    simp at hl
    exact hne (List.length_eq_zero.mp hl.symm)
  · cases hsamp : samples with
    | nil => exact absurd hsamp hne
    | cons s0 rest =>
      subst hsamp
      have hb : ∃ b bs, mkBearings realBear (s0 :: rest) = b :: bs := by
        cases hbb : mkBearings realBear (s0 :: rest) with
        | nil => rw [hbb] at hblen; simp at hblen
        | cons b bs => exact ⟨b, bs, rfl⟩
      obtain ⟨b, bs, hbb⟩ := hb
      have hs0 : s0.cum = 0 := by
        simp only [List.map_cons, List.head?_cons, Option.some_inj] at hhead
        exact hhead
      rw [hpts, hbb, mkPoints, List.headD_cons]
      exact hs0
  · rw [hmc]
    exact List.chain'_iff_pairwise.mpr hsorted

theorem C4_witness :
    exR.points ≠ [] ∧ (exR.points.headD junkPoint).cum_dist_m = 0 ∧
      List.Chain' (· ≤ ·) (exR.points.map (fun p => p.cum_dist_m)) ∧
      (exR.points.getLastD junkPoint).cum_dist_m = exR.total_distance_m :=
  C4_cum_dist_monotone exPts none exR exRun

/-- C7: Every bearing value — as returned by `bearing_deg_true` for any
two coordinate pairs, and as attached to every point of every
`NormalizedRoute` produced by the pipeline (including the final point,
which copies the previous point's bearing) — lies in `[0, 360)`. -/
theorem C7_bearing_range :
    (∀ aLon aLat bLon bLat : ℝ,
      0 ≤ bearing_deg_true aLon aLat bLon bLat ∧
        bearing_deg_true aLon aLat bLon bLat < 360) ∧
    ∀ (pts : List (ℝ × ℝ)) (s? : Option ℝ) (r : NormalizedRoute ℝ),
      normalizeRoute pts s? = some (.ok r) →
      ∀ p ∈ r.points, 0 ≤ p.bearing_deg_true ∧ p.bearing_deg_true < 360 := by
  refine ⟨bearing_deg_true_mem, ?_⟩
  intro pts s? r h p hp
  obtain ⟨samples, hpts, -, -, -, -, -, -, -, -⟩ :=
    normalizeRoute_ok_main pts s? r h
  rw [hpts] at hp
  have hbm := mkPoints_mem_bearing 0 samples _ p hp
  rcases mkBearings_mem realBear samples _ hbm with h0 | ⟨a, b, c, d, habcd⟩
  · rw [h0]
    norm_num
  · rw [habcd]
    exact bearing_deg_true_mem a b c d

theorem C7_witness :
    (0 ≤ bearing_deg_true 0 0 (1 / 1000 : ℝ) 0 ∧
      bearing_deg_true 0 0 (1 / 1000 : ℝ) 0 < 360) ∧
    ∀ p ∈ exR.points, 0 ≤ p.bearing_deg_true ∧ p.bearing_deg_true < 360 :=
  ⟨C7_bearing_range.1 0 0 (1 / 1000) 0, C7_bearing_range.2 exPts none exR exRun⟩

/-- C2: For every raw coordinate sequence that passes validation, the
pipeline produces the same normalized output as it does for the sequence
with each run of consecutive identical points collapsed to one
representative: the stages downstream of the validator behave as if they
received the de-duplicated sequence. -/
theorem C2_dedup_refinement (pts : List (ℝ × ℝ)) (s? : Option ℝ)
    (hok : validate_route_guardrails realDist pts = .ok ()) :
    normalizeRoute pts s? = normalizeRoute (dedupConsecutive pts) s? := by
  obtain ⟨hres, hpoly, -, -, -, -⟩ :=
    validate_consequences realDist realDist_nonneg realDist_self pts hok
  have hok' := validate_dedup_ok realDist pts hok
  rw [normalizeRoute, normalizeRoute,
    normalize_unfold realDist realBear pts s? hok,
    normalize_unfold realDist realBear (dedupConsecutive pts) s? hok',
    ← hpoly,
    ← hres (pick_spacing_m (polyline_length_m realDist pts) s?)]

theorem C2_witness :
    normalizeRoute exDupPts none = normalizeRoute (dedupConsecutive exDupPts) none :=
  C2_dedup_refinement exDupPts none validate_exDup

/-- C5: Given a de-duplicated coordinate sequence with at least 2 points in
which every adjacent segment has positive length not exceeding 50000 m,
guardrail validation fails with `RouteTooShort` iff the total length is
< 25 m, fails with `RouteTooLong` iff the total is > 500000 m, and
succeeds otherwise. -/
theorem C5_total_length_checks (pts : List (ℝ × ℝ))
    (hlen : 2 ≤ pts.length)
    (hchain : List.Chain' (fun a b => 0 < realDist a b ∧ realDist a b ≤ 50000) pts) :
    (validate_route_guardrails realDist pts = .error RouteErr.tooShort ↔
      polyline_length_m realDist pts < 25) ∧
    (validate_route_guardrails realDist pts = .error RouteErr.tooLong ↔
      polyline_length_m realDist pts > 500000) ∧
    (validate_route_guardrails realDist pts = .ok () ↔
      25 ≤ polyline_length_m realDist pts ∧
        polyline_length_m realDist pts ≤ 500000) := by
  have hchain' : List.Chain' (fun a b => 0 < realDist a b ∧
      realDist a b ≤ MAX_SEGMENT_M) pts := hchain
  have hded : dedupConsecutive pts = pts := by
    apply dedup_eq_self
    refine List.Chain'.imp ?_ hchain
    intro a b hab heq
    rw [heq] at hab
    exact absurd (realDist_self b) (ne_of_gt hab.1)
  have hcs : checkSegs realDist pts = .ok () :=
    (checkSegs_ok_iff realDist pts).mpr hchain'
  have hval := validate_eq_totalChecks realDist pts hded hlen hcs
  rw [hval, show (MIN_ROUTE_M : ℝ) = 25 from rfl,
    show (MAX_ROUTE_M : ℝ) = 500000 from rfl]
  by_cases h25 : polyline_length_m realDist pts < 25
  · rw [if_pos h25]
    refine ⟨⟨fun _ => h25, fun _ => rfl⟩,
      ⟨fun hcontra => ?_, fun hg => ?_⟩, ⟨fun hcontra => ?_, fun hc => ?_⟩⟩
    · exact absurd hcontra (by simp)
    · linarith
    · exact absurd hcontra (by simp)
    · linarith [hc.1]
  · rw [if_neg h25]
    by_cases h5 : polyline_length_m realDist pts > 500000
    · rw [if_pos h5]
      refine ⟨⟨fun hcontra => ?_, fun hlt => ?_⟩,
        ⟨fun _ => h5, fun _ => rfl⟩, ⟨fun hcontra => ?_, fun hc => ?_⟩⟩
      · exact absurd hcontra (by simp)
      · exact absurd hlt h25
      · exact absurd hcontra (by simp)
      · linarith [hc.2]
    · rw [if_neg h5]
      push_neg at h25 h5
      refine ⟨⟨fun hcontra => ?_, fun hlt => ?_⟩,
        ⟨fun hcontra => ?_, fun hg => ?_⟩, ⟨fun _ => ⟨h25, h5⟩, fun _ => rfl⟩⟩
      · exact absurd hcontra (by simp)
      · linarith
      · exact absurd hcontra (by simp)
      · linarith

theorem C5_witness : validate_route_guardrails realDist exPts = .ok () := by
  have hchain : List.Chain' (fun a b => 0 < realDist a b ∧ realDist a b ≤ 50000)
      exPts := by
    unfold exPts
    rw [List.chain'_pair]
    rw [realDist_ex]
    exact ⟨exD_pos, exD_le_50000⟩
  have h := C5_total_length_checks exPts (by unfold exPts; simp) hchain
  apply h.2.2.mpr
  rw [polyline_ex]
  exact ⟨exD_ge_25, exD_le_500000⟩

/-- C3: For every input polyline that passes validation and every spacing
strictly greater than 0, the resampler succeeds and its final emitted
sample carries exactly the longitude and latitude of the last point of the
input polyline. -/
theorem C3_last_point_exact (pts : List (ℝ × ℝ)) (spacing : ℝ)
    (hok : validate_route_guardrails realDist pts = .ok ()) (hsp : 0 < spacing) :
    ∃ samples : List (RSample ℝ),
      resample_even_spacing realDist pts spacing = some (.ok samples) ∧
      samples ≠ [] ∧
      (samples.getLastD ⟨0, 0, 0, 0⟩).lon = (pts.getLastD (0, 0)).1 ∧
      (samples.getLastD ⟨0, 0, 0, 0⟩).lat = (pts.getLastD (0, 0)).2 := by
  obtain ⟨hres, hpoly, hmin, -, hlen2, hchain⟩ :=
    validate_consequences realDist realDist_nonneg realDist_self pts hok
  have htpos : 0 < polyline_length_m realDist pts :=
    lt_of_lt_of_le MIN_ROUTE_pos hmin
  have htdpos : 0 < polyline_length_m realDist (dedupConsecutive pts) := by
    rw [← hpoly]
    exact htpos
  obtain ⟨mids, hm⟩ := @targetsFuel_loopFuel_isSome ℝ _ _ _ spacing
    (polyline_length_m realDist (dedupConsecutive pts)) hsp
  have hresd := resample_some realDist (dedupConsecutive pts) spacing htdpos.ne' hm
  obtain ⟨hsorted, -, hlast?, -⟩ := targets_props hsp htdpos hm rfl
  set T := polyline_length_m realDist (dedupConsecutive pts) with hT
  set tgts := (if mids.getLastD 0 ≠ T then (0 :: mids) ++ [T] else 0 :: mids)
    with htg
  set segs := buildSegs realDist (dedupConsecutive pts) with hsegsdef
  have hemit := emitAux_eq_spec segs tgts 0 0 0 true (Nat.zero_le _)
    (cumTake_zero _).symm (fun t ht j hj => absurd hj (Nat.not_lt_zero j)) hsorted
  obtain ⟨sd, hlastS⟩ := specSamples_getLast segs tgts 0 true T hlast?
  have hpos : ∀ s ∈ segs, 0 < s.len := by
    rw [hsegsdef]
    exact buildSegs_forall realDist (fun s => 0 < s.len) (dedupConsecutive pts)
      (List.Chain'.imp (fun a b hab => hab.1) hchain)
  have hsegne : segs ≠ [] := by
    cases hd : dedupConsecutive pts with
    | nil =>
      rw [hd] at hlen2
      simp at hlen2
    | cons a tail =>
      cases tail with
      | nil =>
        rw [hd] at hlen2
        simp at hlen2
      | cons b rest =>
        rw [hsegsdef, hd, buildSegs_cons]
        exact List.cons_ne_nil _ _
  have hsum : (segs.map (fun s => s.len)).sum = T := by
    rw [hsegsdef, hT]
    exact buildSegs_sum realDist (dedupConsecutive pts)
  have hpt : pointAtDist segs T =
      ((segs.getLastD junkSeg).bLat, (segs.getLastD junkSeg).bLon) := by
    rw [← hsum]
    exact pointAtDist_total segs hsegne hpos
  obtain ⟨restT, hrestT⟩ := targets_head mids T
  have htgts : tgts = 0 :: restT := htg.trans hrestT
  have hne : emitAux segs tgts 0 0 0 true ≠ [] := by
    intro hnil
    have hlen := emitAux_length segs tgts 0 0 0 true
    rw [hnil, htgts] at hlen
    simp at hlen
  have hgl : (emitAux segs tgts 0 0 0 true).getLast? =
      some ⟨(pointAtDist segs T).1, (pointAtDist segs T).2, sd, T⟩ := by
    rw [hemit]
    exact hlastS
  have hglD : (emitAux segs tgts 0 0 0 true).getLastD ⟨0, 0, 0, 0⟩ =
      ⟨(pointAtDist segs T).1, (pointAtDist segs T).2, sd, T⟩ := by
    rw [List.getLastD_eq_getLast?, hgl]
    rfl
  have hbl := buildSegs_getLast realDist (dedupConsecutive pts) hlen2
  have hdl := dedup_getLastD pts ((0 : ℝ), (0 : ℝ)) (validate_ok_ne_nil realDist pts hok)
  refine ⟨emitAux segs tgts 0 0 0 true, ?_, hne, ?_, ?_⟩
  · rw [hres spacing]
    exact hresd
  · rw [hglD, hpt]
    show (segs.getLastD junkSeg).bLon = (pts.getLastD (0, 0)).1
    rw [← hdl, hsegsdef]
    exact hbl.1
  · rw [hglD, hpt]
    show (segs.getLastD junkSeg).bLat = (pts.getLastD (0, 0)).2
    rw [← hdl, hsegsdef]
    exact hbl.2

theorem C3_witness :
    ∃ samples : List (RSample ℝ),
      resample_even_spacing realDist exPts 250 = some (.ok samples) ∧
      samples ≠ [] ∧
      (samples.getLastD ⟨0, 0, 0, 0⟩).lon = (exPts.getLastD (0, 0)).1 ∧
      (samples.getLastD ⟨0, 0, 0, 0⟩).lat = (exPts.getLastD (0, 0)).2 :=
  C3_last_point_exact exPts 250 validate_ex (by norm_num)

/-- C1: For every raw coordinate sequence that passes guardrail validation
and every requested spacing whose naive point estimate
`⌊total/spacing⌋ + 2` exceeds 2500, the spacing selector widens the
spacing to `total / 2499` and the `NormalizedRoute` produced by the
pipeline has `point_count ≤ 2501`. -/
theorem C1_spacing_cap (pts : List (ℝ × ℝ)) (s? : Option ℝ)
    (hok : validate_route_guardrails realDist pts = .ok ())
    (hbig : (MAX_POINTS : ℤ) <
      ⌊polyline_length_m realDist pts / spacingBase s?⌋ + 2) :
    pick_spacing_m (polyline_length_m realDist pts) s? =
      polyline_length_m realDist pts / 2499 ∧
    ∃ r : NormalizedRoute ℝ, normalizeRoute pts s? = some (.ok r) ∧
      r.point_count ≤ 2501 := by
  obtain ⟨-, -, hmin, -, -, -⟩ :=
    validate_consequences realDist realDist_nonneg realDist_self pts hok
  have htpos : 0 < polyline_length_m realDist pts :=
    lt_of_lt_of_le MIN_ROUTE_pos hmin
  have hpick : pick_spacing_m (polyline_length_m realDist pts) s? =
      polyline_length_m realDist pts / 2499 := by
    unfold pick_spacing_m
    rw [if_neg (not_le.mpr htpos), if_neg (not_le.mpr hbig)]
    norm_num [MAX_POINTS]
  have hsp : 0 < pick_spacing_m (polyline_length_m realDist pts) s? := by
    rw [hpick]
    positivity
  obtain ⟨mids, hm⟩ := @targetsFuel_loopFuel_isSome ℝ _ _ _
    (pick_spacing_m (polyline_length_m realDist pts) s?)
    (polyline_length_m realDist pts) hsp
  have hresR := resample_some realDist pts _ htpos.ne' hm
  obtain ⟨-, -, -, hlenb⟩ := targets_props hsp htpos hm rfl
  obtain ⟨-, hlt, -⟩ := targetsFuel_char _ _ mids hm
  have hmlen : mids.length ≤ 2498 := by
    by_contra hgt
    push_neg at hgt
    have h1 := hlt 2498 (by omega)
    rw [hpick] at h1
    push_cast at h1
    have h2 : (2499 : ℝ) * (polyline_length_m realDist pts / 2499) =
        polyline_length_m realDist pts := by ring
    linarith
  set tgts := (if mids.getLastD 0 ≠ polyline_length_m realDist pts
      then (0 :: mids) ++ [polyline_length_m realDist pts]
      else 0 :: mids) with htg
  set samples := emitAux (buildSegs realDist pts) tgts 0 0 0 true with hsdef
  have hnorm := normalize_some realDist realBear pts s? hok hresR
  have hne : samples ≠ [] := by
    obtain ⟨restT, hrestT⟩ := targets_head mids (polyline_length_m realDist pts)
    have htgts : tgts = 0 :: restT := htg.trans hrestT
    intro hnil
    have hlen := emitAux_length (buildSegs realDist pts) tgts 0 0 0 true
    rw [← hsdef, hnil, htgts] at hlen
    simp at hlen
  have hblen := mkBearings_length realBear samples hne
  have hmk : (mkPoints 0 samples (mkBearings realBear samples)).length =
      samples.length := mkPoints_length 0 samples _ hblen
  have hslen : samples.length = tgts.length := by
    rw [hsdef]
    exact emitAux_length (buildSegs realDist pts) tgts 0 0 0 true
  have hnorm' : normalizeRoute pts s? = some (.ok
      ⟨pick_spacing_m (polyline_length_m realDist pts) s?,
       ((mkPoints 0 samples (mkBearings realBear samples)).getLastD junkPoint).cum_dist_m,
       (mkPoints 0 samples (mkBearings realBear samples)).length,
       bbox_wgs84 ((mkPoints 0 samples (mkBearings realBear samples)).map
         (fun p => (p.lon, p.lat))),
       mkPoints 0 samples (mkBearings realBear samples)⟩) := by
    rw [normalizeRoute]
    exact hnorm
  refine ⟨hpick, ⟨_, hnorm', ?_⟩⟩
  show (mkPoints 0 samples (mkBearings realBear samples)).length ≤ 2501
  rw [hmk, hslen]
  calc tgts.length ≤ mids.length + 2 := hlenb
    _ ≤ 2501 := by omega

theorem C1_witness :
    pick_spacing_m (polyline_length_m realDist exPts) (some (1 / 100)) =
      polyline_length_m realDist exPts / 2499 ∧
    ∃ r : NormalizedRoute ℝ,
      normalizeRoute exPts (some (1 / 100)) = some (.ok r) ∧
        r.point_count ≤ 2501 := by
  apply C1_spacing_cap exPts (some (1 / 100)) validate_ex
  have hsb : spacingBase (some (1 / 100 : ℝ)) = 1 / 100 := by
    show (if (1 / 100 : ℝ) = 0 then DEFAULT_SPACING_M else 1 / 100) = 1 / 100
    rw [if_neg (by norm_num)]
  rw [polyline_ex, hsb]
  have hfl : (2499 : ℤ) ≤ ⌊exD / (1 / 100 : ℝ)⌋ := by
    apply Int.le_floor.mpr
    have hq : exD / (1 / 100 : ℝ) = 100 * exD := by ring
    rw [hq]
    push_cast
    linarith [exD_ge_25]
  have hMP : (MAX_POINTS : ℤ) = 2500 := by norm_num [MAX_POINTS]
  rw [hMP]
  omega

set_option maxHeartbeats 1000000 in
/-- C9 (amended): the claimed equivalence `haversine_m = 0 ↔ a = b` does
hold once the coordinates are restricted to longitudes in `(-180, 180]`
and latitudes in `(-90, 90)`; on the full claimed range
`[-180,180] × [-90,90]` it is false (see the counterexample). -/
theorem C9_haversine_zero_iff (aLon aLat bLon bLat : ℝ)
    (ha1 : -180 < aLon) (ha2 : aLon ≤ 180) (hb1 : -180 < bLon) (hb2 : bLon ≤ 180)
    (ha3 : -90 < aLat) (ha4 : aLat < 90) (hb3 : -90 < bLat) (hb4 : bLat < 90) :
    haversine_m aLon aLat bLon bLat = 0 ↔ aLon = bLon ∧ aLat = bLat := by
  constructor
  · intro h
    simp only [haversine_m, radians] at h
    set dphi2 := (bLat - aLat) * Real.pi / 180 / 2 with hdphi2
    set dlmb2 := (bLon - aLon) * Real.pi / 180 / 2 with hdlmb2
    have hc1 : 0 < Real.cos (aLat * Real.pi / 180) := by
      apply Real.cos_pos_of_mem_Ioo
      constructor
      · nlinarith [mul_pos Real.pi_pos (show (0 : ℝ) < aLat + 90 from by linarith)]
      · nlinarith [mul_pos Real.pi_pos (show (0 : ℝ) < 90 - aLat from by linarith)]
    have hc2 : 0 < Real.cos (bLat * Real.pi / 180) := by
      apply Real.cos_pos_of_mem_Ioo
      constructor
      · nlinarith [mul_pos Real.pi_pos (show (0 : ℝ) < bLat + 90 from by linarith)]
      · nlinarith [mul_pos Real.pi_pos (show (0 : ℝ) < 90 - bLat from by linarith)]
    set S := Real.sin dphi2 ^ 2 + Real.cos (aLat * Real.pi / 180) *
      Real.cos (bLat * Real.pi / 180) * Real.sin dlmb2 ^ 2 with hS
    have harc : Real.arcsin (Real.sqrt S) = 0 := by
      have h2 : (2 * 6371000 : ℝ) ≠ 0 := by norm_num
      exact (mul_eq_zero.mp h).resolve_left h2
    have hSnonneg : 0 ≤ S := by
      rw [hS]
      exact add_nonneg (sq_nonneg _)
        (mul_nonneg (mul_nonneg hc1.le hc2.le) (sq_nonneg _))
    have hsq : Real.sqrt S = 0 := by
      by_contra hne
      have hpos : 0 < Real.sqrt S :=
        lt_of_le_of_ne (Real.sqrt_nonneg S) (Ne.symm hne)
      have := Real.arcsin_pos.mpr hpos
      linarith
    have hS0 : S = 0 := le_antisymm (Real.sqrt_eq_zero'.mp hsq) hSnonneg
    rw [hS] at hS0
    have h1 : Real.sin dphi2 = 0 := by
      have hsq1 : Real.sin dphi2 ^ 2 = 0 := by
        linarith only [hS0, sq_nonneg (Real.sin dphi2),
          mul_nonneg (mul_nonneg hc1.le hc2.le) (sq_nonneg (Real.sin dlmb2))]
      exact (pow_eq_zero_iff (by norm_num)).mp hsq1
    have h2 : Real.sin dlmb2 = 0 := by
      have hprod : Real.cos (aLat * Real.pi / 180) * Real.cos (bLat * Real.pi / 180) *
          Real.sin dlmb2 ^ 2 = 0 := by
        linarith only [hS0, sq_nonneg (Real.sin dphi2),
          mul_nonneg (mul_nonneg hc1.le hc2.le) (sq_nonneg (Real.sin dlmb2))]
      have hcc : Real.cos (aLat * Real.pi / 180) *
          Real.cos (bLat * Real.pi / 180) ≠ 0 := (mul_pos hc1 hc2).ne'
      have hsq2 : Real.sin dlmb2 ^ 2 = 0 := (mul_eq_zero.mp hprod).resolve_left hcc
      exact (pow_eq_zero_iff (by norm_num)).mp hsq2
    have hd1 : dphi2 = 0 := by
      refine (Real.sin_eq_zero_iff_of_lt_of_lt ?_ ?_).mp h1
      · rw [hdphi2]
        linarith only [mul_pos Real.pi_pos
          (show (0 : ℝ) < bLat - aLat + 360 from by linarith only [ha4, hb3])]
      · rw [hdphi2]
        linarith only [mul_pos Real.pi_pos
          (show (0 : ℝ) < 360 - (bLat - aLat) from by linarith only [ha3, hb4])]
    have hd2 : dlmb2 = 0 := by
      refine (Real.sin_eq_zero_iff_of_lt_of_lt ?_ ?_).mp h2
      · rw [hdlmb2]
        linarith only [mul_pos Real.pi_pos
          (show (0 : ℝ) < bLon - aLon + 360 from by linarith only [ha2, hb1])]
      · rw [hdlmb2]
        linarith only [mul_pos Real.pi_pos
          (show (0 : ℝ) < 360 - (bLon - aLon) from by linarith only [ha1, hb2])]
    rw [hdphi2] at hd1
    rw [hdlmb2] at hd2
    constructor
    · have h0 : (bLon - aLon) * Real.pi = 0 := by linarith only [hd2]
      rcases mul_eq_zero.mp h0 with hz | hz
      · linarith only [hz]
      · exact absurd hz Real.pi_ne_zero
    · have h0 : (bLat - aLat) * Real.pi = 0 := by linarith only [hd1]
      rcases mul_eq_zero.mp h0 with hz | hz
      · linarith only [hz]
      · exact absurd hz Real.pi_ne_zero
  · rintro ⟨rfl, rfl⟩
    exact haversine_self _ _

/-- C9, counterexample to the claim as stated: the points `(-180, 0)` and
`(180, 0)` are distinct, both lie in the claimed range
`[-180,180] × [-90,90]`, yet `haversine_m` returns exactly 0 (the
longitude difference of 360° maps to `sin π = 0` inside the formula). -/
theorem C9_counterexample :
    haversine_m (-180) 0 180 0 = 0 ∧
    (((-180 : ℝ), (0 : ℝ)) ≠ ((180 : ℝ), (0 : ℝ))) ∧
    |(-180 : ℝ)| ≤ 180 ∧ |(180 : ℝ)| ≤ 180 ∧ |(0 : ℝ)| ≤ 90 := by
  refine ⟨?_, by norm_num, by norm_num, by norm_num, by norm_num⟩
  simp only [haversine_m, radians]
  have e1 : ((0 : ℝ) - 0) * Real.pi / 180 / 2 = 0 := by ring
  have e2 : ((180 : ℝ) - (-180)) * Real.pi / 180 / 2 = Real.pi := by ring
  have e3 : (0 : ℝ) * Real.pi / 180 = 0 := by ring
  rw [e1, e2, e3, Real.sin_zero, Real.sin_pi, Real.cos_zero]
  norm_num

theorem C9_witness : haversine_m 0 0 0 0 = 0 :=
  (C9_haversine_zero_iff 0 0 0 0 (by norm_num) (by norm_num) (by norm_num)
    (by norm_num) (by norm_num) (by norm_num) (by norm_num) (by norm_num)).mpr
    ⟨rfl, rfl⟩

/-! ## Content hashing of the raw input (C8)

`stable_json_sha256` serializes the raw input with Python's
`json.dumps(obj, separators=(",", ":"), sort_keys=True)` and hashes the
bytes.  `json.dumps` is standard-library code not present in this
repository, so the canonical serializer is modelled from the spec. -/

/-- Modelled from the spec: the JSON-like values of the raw submission
(strings, numbers, arrays, and objects as key-value lists; a Python dict
never holds a key twice, which `keysOkJ` below captures). -/
inductive Json where
  | str : String → Json
  | num : Int → Json
  | arr : List Json → Json
  | obj : List (String × Json) → Json

/-- Modelled from the spec: JSON string quoting (the exact escaping rules
are irrelevant to the field-order property). -/
def quoteStr (s : String) : String := "\"" ++ s ++ "\""

/-- Modelled from the spec: one `"key":value` entry of an object. -/
def renderPair (p : String × String) : String := quoteStr p.1 ++ ":" ++ p.2

/-- Modelled from the spec: the key order used by `sort_keys=True` —
entries compare by their key. -/
def keyLe (a b : String × String) : Prop := a.1 ≤ b.1

instance (a b : String × String) : Decidable (keyLe a b) :=
  inferInstanceAs (Decidable (a.1 ≤ b.1))

mutual
/-- Modelled from the spec: the canonical serialization of
`json.dumps(obj, separators=(",", ":"), sort_keys=True)` — keys sorted,
no incidental whitespace, recursive over nested structures. -/
def serialize : Json → String
  | .str s => quoteStr s
  | .num n => toString n
  | .arr l => "[" ++ String.intercalate "," (serializeList l) ++ "]"
  | .obj kvs => "\x7b" ++ String.intercalate ","
      ((List.insertionSort keyLe (serializePairs kvs)).map renderPair) ++ "\x7d"

/-- Modelled from the spec: elementwise serialization of an array. -/
def serializeList : List Json → List String
  | [] => []
  | x :: xs => serialize x :: serializeList xs

/-- Modelled from the spec: per-entry serialization of an object's values
(keys kept, for the subsequent sort). -/
def serializePairs : List (String × Json) → List (String × String)
  | [] => []
  | (k, v) :: rest => (k, serialize v) :: serializePairs rest
end

mutual
/-- Well-formedness of a submission: every object, at every depth, binds
each key once (a Python dict cannot hold a key twice). -/
def keysOkJ : Json → Bool
  | .str _ => true
  | .num _ => true
  | .arr l => keysOkL l
  | .obj kvs => decide (kvs.map Prod.fst).Nodup && keysOkP kvs

def keysOkL : List Json → Bool
  | [] => true
  | x :: xs => keysOkJ x && keysOkL xs

def keysOkP : List (String × Json) → Bool
  | [] => true
  | (_, v) :: rest => keysOkJ v && keysOkP rest
end

mutual
/-- Two submissions carry the same logical raw input, differing only in
the order of object fields (recursively at any depth). -/
inductive Reorder : Json → Json → Prop
  | str (s : String) : Reorder (.str s) (.str s)
  | num (n : Int) : Reorder (.num n) (.num n)
  | arr {l₁ l₂ : List Json} : ReorderList l₁ l₂ → Reorder (.arr l₁) (.arr l₂)
  | obj {kvs₁ mid kvs₂ : List (String × Json)} :
      ReorderPairs kvs₁ mid → mid.Perm kvs₂ → Reorder (.obj kvs₁) (.obj kvs₂)

inductive ReorderList : List Json → List Json → Prop
  | nil : ReorderList [] []
  | cons {x y : Json} {xs ys : List Json} :
      Reorder x y → ReorderList xs ys → ReorderList (x :: xs) (y :: ys)

inductive ReorderPairs : List (String × Json) → List (String × Json) → Prop
  | nil : ReorderPairs [] []
  | cons {k : String} {x y : Json} {xs ys : List (String × Json)} :
      Reorder x y → ReorderPairs xs ys →
      ReorderPairs ((k, x) :: xs) ((k, y) :: ys)
end

/-- `stable_json_sha256` from `route_normalizer.py`: the SHA-256 hex digest
(an external primitive, deterministic by being a function) is a parameter. -/
def stable_json_sha256 (hashHex : String → String) (o : Json) : String :=
  "sha256:" ++ hashHex (serialize o)

theorem serializePairs_eq_map :
    ∀ l : List (String × Json),
      serializePairs l = l.map (fun p => (p.1, serialize p.2)) := by
  intro l
  induction l with
  | nil => rfl
  | cons p rest ih =>
    obtain ⟨k, v⟩ := p
    simp only [serializePairs, List.map_cons]
    rw [ih]

theorem serializePairs_keys (l : List (String × Json)) :
    (serializePairs l).map Prod.fst = l.map Prod.fst := by
  induction l with
  | nil => rfl
  | cons p rest ih =>
    obtain ⟨k, v⟩ := p
    simp only [serializePairs, List.map_cons]
    rw [ih]

theorem sort_eq_of_perm_of_nodup_keys (l₁ l₂ : List (String × String))
    (h : l₁.Perm l₂) (hnd : (l₁.map Prod.fst).Nodup) :
    List.insertionSort keyLe l₁ = List.insertionSort keyLe l₂ := by
  haveI : IsTotal (String × String) keyLe := ⟨fun a b => le_total a.1 b.1⟩
  haveI : IsTrans (String × String) keyLe :=
    ⟨fun a b c hab hbc => le_trans hab hbc⟩
  haveI : IsAntisymm (String × String) (fun a b : String × String => a.1 < b.1) :=
    ⟨fun a b hab hba => absurd hba (lt_asymm hab)⟩
  have hp : (List.insertionSort keyLe l₁).Perm (List.insertionSort keyLe l₂) :=
    ((List.perm_insertionSort keyLe l₁).trans h).trans
      (List.perm_insertionSort keyLe l₂).symm
  have hnd₁ : ((List.insertionSort keyLe l₁).map Prod.fst).Nodup :=
    (((List.perm_insertionSort keyLe l₁).map Prod.fst).symm).nodup hnd
  have hnd₂ : ((List.insertionSort keyLe l₂).map Prod.fst).Nodup := by
    have h₂ : (l₂.map Prod.fst).Nodup := (h.map Prod.fst).nodup hnd
    exact (((List.perm_insertionSort keyLe l₂).map Prod.fst).symm).nodup h₂
  have strict : ∀ s : List (String × String), s.Sorted keyLe →
      (s.map Prod.fst).Nodup →
      s.Sorted (fun a b : String × String => a.1 < b.1) := by
    intro s hs hn
    have hne : s.Pairwise (fun a b : String × String => a.1 ≠ b.1) := by
      rw [List.Nodup, List.pairwise_map] at hn
      exact hn
    exact (hs.and hne).imp (fun hab => lt_of_le_of_ne hab.1 hab.2)
  exact List.eq_of_perm_of_sorted hp
    (strict _ (List.sorted_insertionSort keyLe l₁) hnd₁)
    (strict _ (List.sorted_insertionSort keyLe l₂) hnd₂)

theorem serializeList_congr {n : ℕ}
    (IH : ∀ a b : Json, sizeOf a ≤ n → Reorder a b → keysOkJ a = true →
      serialize a = serialize b) :
    ∀ l₁ l₂ : List Json, ReorderList l₁ l₂ → (∀ x ∈ l₁, sizeOf x ≤ n) →
      keysOkL l₁ = true → serializeList l₁ = serializeList l₂ := by
  intro l₁
  induction l₁ with
  | nil =>
    intro l₂ h _ _
    cases h
    rfl
  | cons x xs ihl =>
    intro l₂ h hsz hok
    cases h with
    | cons hxy hrest =>
      simp only [keysOkL, Bool.and_eq_true] at hok
      simp only [serializeList]
      rw [IH _ _ (hsz _ (List.mem_cons_self _ _)) hxy hok.1,
        ihl _ hrest (fun z hz => hsz z (List.mem_cons_of_mem _ hz)) hok.2]

theorem serializePairs_congr {n : ℕ}
    (IH : ∀ a b : Json, sizeOf a ≤ n → Reorder a b → keysOkJ a = true →
      serialize a = serialize b) :
    ∀ l₁ l₂ : List (String × Json), ReorderPairs l₁ l₂ →
      (∀ p ∈ l₁, sizeOf (Prod.snd p) ≤ n) → keysOkP l₁ = true →
      serializePairs l₁ = serializePairs l₂ := by
  intro l₁
  induction l₁ with
  | nil =>
    intro l₂ h _ _
    cases h
    rfl
  | cons p ps ihl =>
    intro l₂ h hsz hok
    cases h with
    | cons hxy hrest =>
      simp only [keysOkP, Bool.and_eq_true] at hok
      simp only [serializePairs]
      rw [IH _ _ (hsz _ (List.mem_cons_self _ _)) hxy hok.1,
        ihl _ hrest (fun q hq => hsz q (List.mem_cons_of_mem _ hq)) hok.2]

theorem serialize_eq_of_reorder :
    ∀ (n : ℕ) (a b : Json), sizeOf a ≤ n → Reorder a b → keysOkJ a = true →
      serialize a = serialize b := by
  intro n
  induction n with
  | zero =>
    intro a b hsz _ _
    exfalso
    cases a <;> simp at hsz
  | succ n ih =>
    intro a b hsz hre hok
    cases hre with
    | str s => rfl
    | num v => rfl
    | arr hl =>
      rename_i l₁ l₂
      simp only [serialize]
      have hszl : sizeOf l₁ ≤ n := by
        simp only [Json.arr.sizeOf_spec] at hsz
        omega
      rw [serializeList_congr ih l₁ l₂ hl
        (fun x hx => le_of_lt (lt_of_lt_of_le (List.sizeOf_lt_of_mem hx) hszl))
        (by simpa [keysOkJ] using hok)]
    | obj hp hperm =>
      rename_i kvs₁ mid kvs₂
      simp only [serialize]
      simp only [keysOkJ, Bool.and_eq_true, decide_eq_true_eq] at hok
      have hszk : sizeOf kvs₁ ≤ n := by
        simp only [Json.obj.sizeOf_spec] at hsz
        omega
      have hsp : serializePairs kvs₁ = serializePairs mid := by
        refine serializePairs_congr ih kvs₁ mid hp ?_ hok.2
        intro p hpm
        obtain ⟨k, v⟩ := p
        have h1 : sizeOf (k, v) < sizeOf kvs₁ := List.sizeOf_lt_of_mem hpm
        have h2 : sizeOf ((k, v) : String × Json) = 1 + sizeOf k + sizeOf v := rfl
        simp only [h2] at h1
        show sizeOf v ≤ n
        omega
      have hpm : (serializePairs mid).Perm (serializePairs kvs₂) := by
        rw [serializePairs_eq_map, serializePairs_eq_map]
        exact hperm.map _
      have hnd : ((serializePairs kvs₁).map Prod.fst).Nodup := by
        rw [serializePairs_keys]
        exact hok.1
      rw [sort_eq_of_perm_of_nodup_keys (serializePairs kvs₁) (serializePairs kvs₂)
        (hsp ▸ hpm) hnd]

/-- C8: for any two submissions carrying the same logical raw input and
differing only in the order of object fields (no object binding a key
twice), `stable_json_sha256` produces the identical digest string, for
every digest function: the canonical serialization is independent of
field order. -/
theorem C8_hash_field_order (hashHex : String → String) (a b : Json)
    (hre : Reorder a b) (hok : keysOkJ a = true) :
    stable_json_sha256 hashHex a = stable_json_sha256 hashHex b := by
  rw [stable_json_sha256, stable_json_sha256,
    serialize_eq_of_reorder (sizeOf a) a b le_rfl hre hok]

theorem C8_witness :
    stable_json_sha256 (fun s => s)
      (Json.obj [("a", Json.num 1), ("b", Json.num 2)]) =
    stable_json_sha256 (fun s => s)
      (Json.obj [("b", Json.num 2), ("a", Json.num 1)]) :=
  C8_hash_field_order (fun s => s) _ _
    (Reorder.obj
      (ReorderPairs.cons (Reorder.num 1)
        (ReorderPairs.cons (Reorder.num 2) ReorderPairs.nil))
      (List.Perm.swap ("b", Json.num 2) ("a", Json.num 1) []))
    (by decide)

end BoatRide
